import Mathlib

/-!
# NVMM (gull): global pointers, zone heap, epoch-delayed free, shelf registry and regions

A shallow embedding of `include/nvmm/global_ptr.h` (the `GlobalPtr` codec), together
with models of the components whose implementation is outside the available sources
(zone heap, epoch zone heap, shelf manager, shelf region).

Machine integers are natural numbers; every C++ operation on an unsigned type that may
leave the range is followed by an explicit reduction modulo `2 ^ width`.
-/

namespace nvmm

/-! ## Unsigned 64-bit arithmetic (`uint64_t`) -/

/-- Addition on `uint64_t`. -/
def add64 (a b : Nat) : Nat := (a + b) % 2 ^ 64

/-- Subtraction on `uint64_t` (wraps around below zero). -/
def sub64 (a b : Nat) : Nat := (a + 2 ^ 64 - b % 2 ^ 64) % 2 ^ 64

/-- Left shift on `uint64_t` by a shift amount below 64. -/
def shl64 (a n : Nat) : Nat := (a <<< n) % 2 ^ 64

/-- Right shift on `uint64_t`. -/
def shr64 (a n : Nat) : Nat := a >>> n

/-- Bitwise and on `uint64_t`. -/
def and64 (a b : Nat) : Nat := a &&& b

/-! ## ShelfId -/

/-- Modelled from the spec: `nvmm/shelf_id.h` is not among the sources. The spec gives
`ShelfId` as an 8-bit opaque value, so `ShelfIdStorageType` is an unsigned 8-bit integer. -/
def ShelfIdStorageBits : Nat := 8

/-- Modelled from the spec: `nvmm/shelf_id.h` is not among the sources. A shelf id is its
8-bit storage value `shelf_id_`. -/
structure ShelfId where
  shelf_id_ : Nat
  deriving DecidableEq, Repr

namespace ShelfId

/-- Modelled from the spec: `nvmm/shelf_id.h` is not among the sources. The constructor
`ShelfId(ShelfIdStorageType)` applied to a value converted to the 8-bit storage type. -/
def ofStorage (x : Nat) : ShelfId := ⟨x % 2 ^ ShelfIdStorageBits⟩

/-- Modelled from the spec: `nvmm/shelf_id.h` is not among the sources. The storage value
of the shelf id. -/
def GetShelfId (s : ShelfId) : Nat := s.shelf_id_

/-- Modelled from the spec: `nvmm/shelf_id.h` is not among the sources. The spec reserves
the value `0` as "invalid". -/
def IsValid (s : ShelfId) : Bool := s.shelf_id_ != 0

end ShelfId

/-! ## GlobalPtr

`using GlobalPtr = GlobalPtrClass<GlobalPtrStorageType, 64, ShelfId, 8, Reserve, 8, Offset, 48>`
with `GlobalPtrStorageType = uint64_t`, `Offset = uint64_t`, `Reserve = uint8_t`. -/

/-- Template argument `GlobalPtrTSize`. -/
def GlobalPtrTSize : Nat := 64
/-- Template argument `ShelfIdTSize`. -/
def ShelfIdTSize : Nat := 8
/-- Template argument `ReserveTSize`. -/
def ReserveTSize : Nat := 8
/-- Template argument `OffsetTSize`. -/
def OffsetTSize : Nat := 48
/-- Width of the type `Reserve = uint8_t`. -/
def ReserveBits : Nat := 8

/-- Constant `static int const kShelfIdShift = ReserveTSize + OffsetTSize`. -/
def kShelfIdShift : Nat := ReserveTSize + OffsetTSize
/-- Constant `static int const kReserveShift = OffsetTSize`. -/
def kReserveShift : Nat := OffsetTSize

/-- Source `EncodeGlobalPtr(ShelfIdT shelf_id, OffsetT offset)`. -/
def EncodeGlobalPtr (shelf_id : ShelfId) (offset : Nat) : Nat :=
  add64 (shl64 shelf_id.GetShelfId kShelfIdShift) offset

/-- Source `EncodeGlobalPtr(ShelfIdT shelf_id, ReserveT reserve, OffsetT offset)`. -/
def EncodeGlobalPtr3 (shelf_id : ShelfId) (reserve offset : Nat) : Nat :=
  add64 (add64 (shl64 shelf_id.GetShelfId kShelfIdShift) (shl64 reserve kReserveShift)) offset

/-- Source `DecodeShelfId(GlobalPtrT global_ptr)`. -/
def DecodeShelfId (global_ptr : Nat) : ShelfId :=
  ShelfId.ofStorage (shr64 global_ptr kShelfIdShift)

/-- Source `DecodeReserve(GlobalPtrT global_ptr)`: in C++ `<<` binds tighter than `&`, so the mask
`((1 << ReserveTSize) - 1) << kReserveShift` is and-ed with the word and the result is
converted to `ReserveT = uint8_t`. -/
def DecodeReserve (global_ptr : Nat) : Nat :=
  (and64 (shl64 (sub64 (shl64 1 ReserveTSize) 1) kReserveShift) global_ptr) % 2 ^ ReserveBits

/-- Source `DecodeOffset(GlobalPtrT global_ptr)`. -/
def DecodeOffset (global_ptr : Nat) : Nat :=
  and64 (sub64 (shl64 1 OffsetTSize) 1) global_ptr

/-- Source `DecodeReserveAndOffset(GlobalPtrT global_ptr)`. -/
def DecodeReserveAndOffset (global_ptr : Nat) : Nat :=
  and64 (sub64 (shl64 1 (OffsetTSize + ReserveTSize)) 1) global_ptr

/-- The class `GlobalPtr`: its only data member is the 64-bit word `global_ptr_`. The
structure constructor is `GlobalPtrClass(GlobalPtrT global_ptr)`. -/
structure GlobalPtr where
  global_ptr_ : Nat
  deriving DecidableEq, Repr

namespace GlobalPtr

/-- Source `GlobalPtrClass()`. -/
def null : GlobalPtr := ⟨EncodeGlobalPtr ⟨0⟩ 0⟩

/-- Source `GlobalPtrClass(ShelfIdT shelf_id, OffsetT offset)`. -/
def ofShelfOffset (shelf_id : ShelfId) (offset : Nat) : GlobalPtr :=
  ⟨EncodeGlobalPtr shelf_id offset⟩

/-- Source `GlobalPtrClass(ShelfIdT shelf_id, ReserveT reserve, OffsetT offset)`. -/
def ofShelfReserveOffset (shelf_id : ShelfId) (reserve offset : Nat) : GlobalPtr :=
  ⟨EncodeGlobalPtr3 shelf_id reserve offset⟩

/-- Source `IsValidOffset(OffsetT offset)`. -/
def IsValidOffset (offset : Nat) : Bool := offset != 0

/-- Source `GetShelfId()`. -/
def GetShelfId (p : GlobalPtr) : ShelfId := DecodeShelfId p.global_ptr_

/-- Source `GetOffset()`. -/
def GetOffset (p : GlobalPtr) : Nat := DecodeOffset p.global_ptr_

/-- Source `GetReserveAndOffset()`. -/
def GetReserveAndOffset (p : GlobalPtr) : Nat := DecodeReserveAndOffset p.global_ptr_

/-- Source `GetReserve()`. -/
def GetReserve (p : GlobalPtr) : Nat := DecodeReserve p.global_ptr_

/-- Source `ToUINT64()`. -/
def ToUINT64 (p : GlobalPtr) : Nat := p.global_ptr_ % 2 ^ 64

/-- Source `IsValid()`. -/
def IsValid (p : GlobalPtr) : Bool := p.GetShelfId.IsValid && IsValidOffset p.GetOffset

/-- Source `operator==`. -/
def operator_eq (left right : GlobalPtr) : Bool := left.global_ptr_ == right.global_ptr_

/-- Source `operator!=`. -/
def operator_ne (left right : GlobalPtr) : Bool := !(operator_eq left right)

/-- Source `operator<<` on an output stream, the stream being the text written so far. The
accessors `GetPoolId` and `GetShelfIndex` of `ShelfId` are declared in `nvmm/shelf_id.h`,
which is not among the sources, and are parameters here; both results are converted to
`uint64_t` before they are written, and unsigned integers are written in decimal. -/
def operator_lshift (GetPoolId GetShelfIndex : ShelfId → Nat) (os : String) (global_ptr : GlobalPtr) :
    String :=
  let shelf_id := global_ptr.GetShelfId
  os ++ "[" ++ Nat.repr (GetPoolId shelf_id % 2 ^ 64) ++ "_"
    ++ Nat.repr (GetShelfIndex shelf_id % 2 ^ 64) ++ ":" ++ Nat.repr global_ptr.GetOffset ++ "]"

end GlobalPtr

/-! ## Zone: the buddy structure of a heap shelf (spec 3 and 4.G)

The implementation of the zone heap is not among the sources (only its tests are), so
this part is a model of the spec. Chunks are identified by their byte offset inside the
shelf; level `l` manages chunks of `2 ^ l * 64` bytes. -/

/-- Modelled from the spec: the zone heap implementation is not among the sources.
`min_obj_size = 64 B`. -/
def kMinObjSize : Nat := 64

/-- Modelled from the spec: the zone heap implementation is not among the sources. Size in
bytes of a chunk of level `l`, `2^l * min_obj_size`. -/
def chunkSize (l : Nat) : Nat := 2 ^ l * kMinObjSize

/-- Modelled from the spec: the zone heap implementation is not among the sources. The
persistent state of the buddy allocator: the number `K` of levels, the per-level free
lists (entry `l` is the LIFO list of the offsets of the free chunks of level `l`, head
first), and for every chunk handed out its offset and level. The last component stands
for the metadata from which `Free` recovers the level of a chunk ("recovered from the
bitmap" in the spec); the merge bitmap, which repeats which blocks are free, is not a
component of its own. -/
structure Zone where
  levels : Nat
  free_list : List (List Nat)
  allocated : List (Nat × Nat)
  deriving DecidableEq, Repr

/-- Modelled from the spec: the zone heap implementation is not among the sources. The
free list of level `l` (empty for a level that does not exist). -/
def listAt (fl : List (List Nat)) (l : Nat) : List Nat := fl.getD l []

/-- Modelled from the spec: the zone heap implementation is not among the sources. Push
chunk `c` onto the head of the free list of level `l`. -/
def pushFree (fl : List (List Nat)) (l c : Nat) : List (List Nat) :=
  fl.set l (c :: listAt fl l)

/-- Modelled from the spec: the zone heap implementation is not among the sources. Search
for the smallest level `l`, among `fuel` levels from `l` on, whose chunk size holds `bytes`. -/
def levelFrom (bytes : Nat) : Nat → Nat → Option Nat
  | 0, _ => none
  | fuel + 1, l => if bytes ≤ chunkSize l then some l else levelFrom bytes fuel (l + 1)

/-- Modelled from the spec: the zone heap implementation is not among the sources. Step 1
of the allocation algorithm, "compute target level": the request is rounded up to
`2^l * 64` for the smallest `l`; there is none when the request exceeds the top level. -/
def levelFor (levels bytes : Nat) : Option Nat := levelFrom bytes levels 0

/-- Modelled from the spec: the zone heap implementation is not among the sources. Steps 2
to 4 of the allocation algorithm at level `l`, with `fuel` levels left above and including
`l`: pop the head of the level-`l` free list; if the list is empty, obtain a chunk of level
`l + 1` in the same way, return its first half and push the buddy (the second half) onto
the level-`l` list. The spec keeps the free entries of the top three levels in an indexed
table instead of a linked list; that is a representation of the same LIFO list here. -/
def popSplit (fl : List (List Nat)) : Nat → Nat → Option (Nat × List (List Nat))
  | 0, _ => none
  | fuel + 1, l =>
    match listAt fl l with
    | c :: rest => some (c, fl.set l rest)
    | [] =>
      match popSplit fl fuel (l + 1) with
      | some (c, fl') => some (c, pushFree fl' l (c + chunkSize l))
      | none => none

namespace Zone

/-- Modelled from the spec: the zone heap implementation is not among the sources.
Allocation of `bytes` bytes: the offset of the chunk and the new state, or nothing when no
level holds the request or no chunk is free (out of memory). -/
def alloc (z : Zone) (bytes : Nat) : Option (Nat × Zone) :=
  match levelFor z.levels bytes with
  | none => none
  | some l =>
    match popSplit z.free_list (z.levels - l) l with
    | none => none
    | some (c, fl) => some (c, { z with free_list := fl, allocated := (c, l) :: z.allocated })

/-- Modelled from the spec: the zone heap implementation is not among the sources. The free
algorithm: recover the level `l` of the chunk at offset `off` and push the chunk onto the
level-`l` free list. An offset that is not the offset of a chunk handed out is ignored. -/
def free (z : Zone) (off : Nat) : Zone :=
  match z.allocated.find? (fun e => e.1 == off) with
  | none => z
  | some (c, l) =>
    { z with free_list := pushFree z.free_list l c, allocated := z.allocated.erase (c, l) }

end Zone

/-- Modelled from the spec: the zone heap implementation is not among the sources. One step
of the merge algorithm: when the chunk at `c` and its buddy at `c + 2^l * 64` are both
still linked on level `l`, unlink both and push the combined chunk onto level `l + 1`. -/
def mergePair (fl : List (List Nat)) (l c : Nat) : List (List Nat) :=
  if c ∈ listAt fl l ∧ (c + chunkSize l) ∈ listAt fl l then
    pushFree (fl.set l (((listAt fl l).erase c).erase (c + chunkSize l))) (l + 1) c
  else fl

/-- Modelled from the spec: the zone heap implementation is not among the sources. The merge
of level `l`: the free chunks of level `l` that are the first half of a buddy pair (their
offset is a multiple of the size of level `l + 1`) are processed in increasing-offset
order. -/
def mergeLevel (fl : List (List Nat)) (l : Nat) : List (List Nat) :=
  (((listAt fl l).filter (fun c => decide (c % chunkSize (l + 1) = 0))).insertionSort
    (fun a b => a ≤ b)).foldl (fun f c => mergePair f l c) fl

/-- Modelled from the spec: the zone heap implementation is not among the sources. Merge of
`n` consecutive levels from level `l` upward. -/
def mergeLevels (fl : List (List Nat)) : Nat → Nat → List (List Nat)
  | 0, _ => fl
  | n + 1, l => mergeLevels (mergeLevel fl l) n (l + 1)

/-- Modelled from the spec: the zone heap implementation is not among the sources. Floor of
the binary logarithm, by halving at most `fuel` times. -/
def log2Fuel : Nat → Nat → Nat
  | 0, _ => 0
  | fuel + 1, n => if n < 2 then 0 else log2Fuel fuel (n / 2) + 1

/-- Modelled from the spec: the zone heap implementation is not among the sources. Floor of
the binary logarithm (`0` at `0`). -/
def floorLog2 (n : Nat) : Nat := log2Fuel n n

namespace Zone

/-- Modelled from the spec: the zone heap implementation is not among the sources.
`Merge()`: sweep from level 0 upward, rebuilding the free lists of the higher levels from
adjacent free buddies; the top level has nothing above it. -/
def merge (z : Zone) : Zone :=
  { z with free_list := mergeLevels z.free_list (z.levels - 1) 0 }

/-- Modelled from the spec: the zone heap implementation is not among the sources. Take
`bytes` bytes out of the free space for the heap's own use (header, merge bitmap): the
chunk is carved as by an allocation but is not a chunk handed out. -/
def reserve (z : Zone) (bytes : Nat) : Zone :=
  match z.alloc bytes with
  | none => z
  | some (_, z') => { z with free_list := z'.free_list }

/-- Modelled from the spec: the zone heap implementation is not among the sources.
`Create(size)`: `K = floor(log2(size / 64))` levels; the shelf is cut into chunks of the top
level, from which the header (8 blocks of 64 bytes) and then the merge bitmap (one bit per
block, `size / 64 / 8` bytes rounded up to 64) are taken. For 128 MB this gives the layout
of the spec: header in blocks `[0, 8)`, bitmap in blocks `[4096, 8192)`. -/
def create (size : Nat) : Zone :=
  let K := floorLog2 (size / kMinObjSize)
  let top := chunkSize (K - 1)
  let z0 : Zone :=
    { levels := K
      free_list := List.replicate (K - 1) [] ++ [(List.range (size / top)).map (fun i => i * top)]
      allocated := [] }
  reserve (reserve z0 (8 * kMinObjSize)) ((size / kMinObjSize / 8 + 63) / 64 * 64)

end Zone

/-! ## ZoneHeap (spec 4.G) -/

/-- Modelled from the spec: the zone heap implementation is not among the sources. A heap
laid out inside the shelf `shelf_id`. -/
structure ZoneHeap where
  shelf_id : ShelfId
  zone : Zone
  deriving DecidableEq, Repr

namespace ZoneHeap

/-- Modelled from the spec: the zone heap implementation is not among the sources.
`Create(size)` on the shelf `shelf_id`. -/
def Create (shelf_id : ShelfId) (size : Nat) : ZoneHeap := ⟨shelf_id, Zone.create size⟩

/-- Modelled from the spec: the zone heap implementation is not among the sources.
`MinAllocSize() → 64`. -/
def MinAllocSize (_ : ZoneHeap) : Nat := kMinObjSize

/-- Modelled from the spec: the zone heap implementation is not among the sources.
`Alloc(bytes) → GlobalPtr`: the pointer to the chunk in the heap's shelf, or an invalid
pointer (the default-constructed one) if out of memory. -/
def Alloc (h : ZoneHeap) (bytes : Nat) : GlobalPtr × ZoneHeap :=
  match h.zone.alloc bytes with
  | some (off, z) => (GlobalPtr.ofShelfOffset h.shelf_id off, { h with zone := z })
  | none => (GlobalPtr.null, h)

/-- Modelled from the spec: the zone heap implementation is not among the sources.
`Free(ptr)`, the immediate-free variant: the chunk at the offset of `ptr` goes back to the
free list of its level. -/
def Free (h : ZoneHeap) (ptr : GlobalPtr) : ZoneHeap :=
  { h with zone := h.zone.free ptr.GetOffset }

/-- Modelled from the spec: the zone heap implementation is not among the sources.
`Merge()`. -/
def Merge (h : ZoneHeap) : ZoneHeap := { h with zone := h.zone.merge }

end ZoneHeap

/-! ## EpochZoneHeap (spec 4.H) -/

/-- Modelled from the spec: the epoch manager implementation is not among the sources. An
`EpochOp` is a critical region; `reported_epoch` is the epoch it reports. -/
structure EpochOp where
  reported_epoch : Nat
  deriving DecidableEq, Repr

/-- Modelled from the spec: the epoch zone heap implementation is not among the sources. A
zone heap together with the delayed-free queue, the ordered list of the pairs
`(GlobalPtr, epoch_at_free)`. -/
structure EpochZoneHeap where
  heap : ZoneHeap
  pending : List (GlobalPtr × Nat)
  deriving DecidableEq, Repr

namespace EpochZoneHeap

/-- Modelled from the spec: the epoch zone heap implementation is not among the sources. A
heap is created once on its shelf; its delayed-free queue is empty. -/
def Create (shelf_id : ShelfId) (size : Nat) : EpochZoneHeap :=
  ⟨ZoneHeap.Create shelf_id size, []⟩

/-- Modelled from the spec: the epoch zone heap implementation is not among the sources.
`MinAllocSize()` of the underlying heap. -/
def MinAllocSize (h : EpochZoneHeap) : Nat := h.heap.MinAllocSize

/-- Modelled from the spec: the epoch zone heap implementation is not among the sources.
`Alloc(bytes)` delegates to the underlying heap. -/
def Alloc (h : EpochZoneHeap) (bytes : Nat) : GlobalPtr × EpochZoneHeap :=
  ((h.heap.Alloc bytes).1, { h with heap := (h.heap.Alloc bytes).2 })

/-- Modelled from the spec: the epoch zone heap implementation is not among the sources.
`Alloc(op, bytes)` delegates. -/
def AllocOp (h : EpochZoneHeap) (_ : EpochOp) (bytes : Nat) : GlobalPtr × EpochZoneHeap :=
  h.Alloc bytes

/-- Modelled from the spec: the epoch zone heap implementation is not among the sources.
Immediate `Free(ptr)` without an `EpochOp` bypasses the queue. -/
def Free (h : EpochZoneHeap) (ptr : GlobalPtr) : EpochZoneHeap :=
  { h with heap := h.heap.Free ptr }

/-- Modelled from the spec: the epoch zone heap implementation is not among the sources.
`Free(op, ptr)` enqueues the pointer into the pending queue under `op.reported_epoch()`
and does not call the underlying `Free`. -/
def FreeOp (h : EpochZoneHeap) (op : EpochOp) (ptr : GlobalPtr) : EpochZoneHeap :=
  { h with pending := h.pending ++ [(ptr, op.reported_epoch)] }

/-- Modelled from the spec: the epoch zone heap implementation is not among the sources.
`Merge()` of the underlying heap. -/
def Merge (h : EpochZoneHeap) : EpochZoneHeap := { h with heap := h.heap.Merge }

/-- Modelled from the spec: the epoch zone heap implementation is not among the sources. One
pass of the reclamation worker with the snapshot `frontier`: for every queue entry with
`epoch_at_free + 2 ≤ frontier`, in queue order, the immediate `Free` is invoked; those
entries leave the queue. -/
def reclaim (h : EpochZoneHeap) (frontier : Nat) : EpochZoneHeap :=
  { heap := (h.pending.filter (fun e => decide (e.2 + 2 ≤ frontier))).foldl
      (fun hp e => hp.Free e.1) h.heap
    pending := h.pending.filter (fun e => !decide (e.2 + 2 ≤ frontier)) }

/-- The loop `for (i = 0; i < n; i++) ptr[i] = heap->Alloc(bytes)` of the tests: the
pointers in order and the heap after the loop. -/
def allocMany (h : EpochZoneHeap) (bytes : Nat) : Nat → List GlobalPtr × EpochZoneHeap
  | 0 => ([], h)
  | n + 1 =>
    ((h.Alloc bytes).1 :: (allocMany (h.Alloc bytes).2 bytes n).1,
      (allocMany (h.Alloc bytes).2 bytes n).2)

/-- The loop `for (i = 0; i < n; i++) heap->Free(ptr[i])` of the tests. -/
def freeMany (h : EpochZoneHeap) : List GlobalPtr → EpochZoneHeap
  | [] => h
  | p :: ps => freeMany (h.Free p) ps

end EpochZoneHeap

/-! ## The heap with its environment: clients, reclamation worker, epoch frontier -/

/-- Modelled from the spec: the epoch zone heap and the epoch manager are not among the
sources. What can happen to an epoch zone heap, each as one atomic step: the calls of the
clients, a pass of the background reclamation worker with the frontier value `snapshot` it
read beforehand, and an advance of the frontier epoch. Threads are interleavings of these
steps. -/
inductive HeapAction where
  | alloc (bytes : Nat)
  | allocOp (op : EpochOp) (bytes : Nat)
  | free (ptr : GlobalPtr)
  | freeOp (op : EpochOp) (ptr : GlobalPtr)
  | merge
  | reclaim (snapshot : Nat)
  | advance
  deriving DecidableEq, Repr

/-- Modelled from the spec: the epoch zone heap and the epoch manager are not among the
sources. An epoch zone heap and the current frontier epoch. -/
structure HeapSystem where
  heap : EpochZoneHeap
  frontier : Nat
  deriving DecidableEq, Repr

namespace HeapSystem

/-- Modelled from the spec: the epoch zone heap and the epoch manager are not among the
sources. One step: the new state and, for an allocation, the pointer returned. The snapshot
of the worker is a value the frontier had, so it is at most the current frontier; an advance
bumps the frontier by one. -/
def step (s : HeapSystem) : HeapAction → HeapSystem × Option GlobalPtr
  | .alloc bytes => ({ s with heap := (s.heap.Alloc bytes).2 }, some (s.heap.Alloc bytes).1)
  | .allocOp op bytes =>
    ({ s with heap := (s.heap.AllocOp op bytes).2 }, some (s.heap.AllocOp op bytes).1)
  | .free ptr => ({ s with heap := s.heap.Free ptr }, none)
  | .freeOp op ptr => ({ s with heap := s.heap.FreeOp op ptr }, none)
  | .merge => ({ s with heap := s.heap.Merge }, none)
  | .reclaim snapshot => ({ s with heap := s.heap.reclaim (min snapshot s.frontier) }, none)
  | .advance => ({ s with frontier := s.frontier + 1 }, none)

/-- Modelled from the spec: the epoch zone heap and the epoch manager are not among the
sources. A sequence of steps: the final state and the pointers returned by the allocations,
in order. -/
def run (s : HeapSystem) : List HeapAction → HeapSystem × List GlobalPtr
  | [] => (s, [])
  | a :: as => ((run (s.step a).1 as).1, (s.step a).2.toList ++ (run (s.step a).1 as).2)

end HeapSystem

/-- Whether an action is a free, immediate or delayed, of a pointer with offset `off`. -/
def HeapAction.freesOffset (off : Nat) : HeapAction → Bool
  | .free ptr => ptr.GetOffset == off
  | .freeOp _ ptr => ptr.GetOffset == off
  | _ => false

/-! ## The heap operations seen on the zone -/

/-- The pointer a heap on shelf `shelf_id` returns for the outcome of a zone allocation. -/
def wrapOffset (shelf_id : ShelfId) : Option Nat → GlobalPtr
  | some off => GlobalPtr.ofShelfOffset shelf_id off
  | none => GlobalPtr.null

namespace Zone

/-- One allocation on the zone: the offset handed out, if any, and the zone afterwards. -/
def allocStep (z : Zone) (bytes : Nat) : Option Nat × Zone :=
  match z.alloc bytes with
  | some (off, z') => (some off, z')
  | none => (none, z)

/-- The allocation loop on the zone. -/
def allocMany (z : Zone) (bytes : Nat) : Nat → List (Option Nat) × Zone
  | 0 => ([], z)
  | n + 1 =>
    ((z.allocStep bytes).1 :: (allocMany (z.allocStep bytes).2 bytes n).1,
      (allocMany (z.allocStep bytes).2 bytes n).2)

/-- The free loop on the zone. -/
def freeMany (z : Zone) : List Nat → Zone
  | [] => z
  | off :: offs => freeMany (z.free off) offs

end Zone

/-! ## Well-formed zones -/

/-- Two chunks, given by offset and level, do not overlap. -/
def Disj (c l c' l' : Nat) : Prop := c + chunkSize l ≤ c' ∨ c' + chunkSize l' ≤ c

instance (c l c' l' : Nat) : Decidable (Disj c l c' l') := by
  unfold Disj
  infer_instance

/-- The bytes addressable by the 48-bit offset of a `GlobalPtr`. -/
def kOffsetSpace : Nat := 2 ^ OffsetTSize

/-- Well-formedness of a zone: every free list is duplicate-free; the chunks on the free
lists and the chunks handed out are pairwise disjoint; and every chunk lies inside the
48-bit offset space. -/
def Zone.Inv (z : Zone) : Prop :=
  (∀ l, l < z.free_list.length → (listAt z.free_list l).Nodup)
  ∧ (∀ l, l < z.free_list.length → ∀ c ∈ listAt z.free_list l,
      ∀ l', l' < z.free_list.length → ∀ c' ∈ listAt z.free_list l',
        (c, l) ≠ (c', l') → Disj c l c' l')
  ∧ (∀ l, l < z.free_list.length → ∀ c ∈ listAt z.free_list l,
      ∀ e ∈ z.allocated, Disj c l e.1 e.2)
  ∧ z.allocated.Pairwise (fun e e' => Disj e.1 e.2 e'.1 e'.2)
  ∧ (∀ l, l < z.free_list.length → ∀ c ∈ listAt z.free_list l, c + chunkSize l ≤ kOffsetSpace)
  ∧ (∀ e ∈ z.allocated, e.1 + chunkSize e.2 ≤ kOffsetSpace)

instance (z : Zone) : Decidable z.Inv := by
  unfold Zone.Inv
  infer_instance

/-- Well-formedness of a heap: the shelf id fits its 8 bits and the zone is well-formed. -/
def ZoneHeap.Inv (h : ZoneHeap) : Prop := h.shelf_id.shelf_id_ < 2 ^ ShelfIdTSize ∧ h.zone.Inv

instance (h : ZoneHeap) : Decidable h.Inv := by
  unfold ZoneHeap.Inv
  infer_instance

/-- Well-formedness of free lists `fl` and handed-out chunks `al`, with the levels
unbounded (a level that does not exist has an empty free list). -/
structure WF (fl : List (List Nat)) (al : List (Nat × Nat)) : Prop where
  nodup : ∀ l, (listAt fl l).Nodup
  free_free : ∀ l c l' c', c ∈ listAt fl l → c' ∈ listAt fl l' → (c, l) ≠ (c', l') →
    Disj c l c' l'
  free_alloc : ∀ l c e, c ∈ listAt fl l → e ∈ al → Disj c l e.1 e.2
  alloc_alloc : al.Pairwise (fun e e' => Disj e.1 e.2 e'.1 e'.2)
  free_bound : ∀ l c, c ∈ listAt fl l → c + chunkSize l ≤ kOffsetSpace
  alloc_bound : ∀ e ∈ al, e.1 + chunkSize e.2 ≤ kOffsetSpace

/-- The state of a delayed free of the chunk at offset `pc` issued at epoch `E`: the heap
is well-formed, the chunk is still handed out, and every queue entry for it carries an epoch
of at least `E`. -/
def DelayedFree (s : HeapSystem) (pc E : Nat) : Prop :=
  s.heap.heap.Inv ∧ (∃ l, (pc, l) ∈ s.heap.heap.zone.allocated)
    ∧ ∀ e ∈ s.heap.pending, e.1.GetOffset = pc → E ≤ e.2

/-! ## ShelfManager (spec 4.C)

The class is declared in `shelf_mgmt/shelf_manager.h`; its member functions are defined in
a file that is not among the sources. Local pointers (`void *`) are addresses, natural
numbers; the null pointer is the address 0. -/

/-- The null pointer `nullptr`, as an address. -/
def kNullBase : Nat := 0

/-- The static data members of class `ShelfManager`: `map_` (shelf ID => base ptr and
length) and `reverse_map_` (base ptr => shelf ID and length), the second kept in the order
of the base pointers as a `std::map` is. -/
structure ShelfManager where
  map_ : List (ShelfId × (Nat × Nat))
  reverse_map_ : List (Nat × (ShelfId × Nat))
  deriving DecidableEq, Repr

/-- Address `x` lies in the half-open interval `[base, base + length)`. -/
def inInterval (x base length : Nat) : Prop := base ≤ x ∧ x < base + length

/-- Modelled from the spec: the definitions of the `ShelfManager` functions are not among
the sources. Whether the intervals `[base, base + length)` and `[base', base' + length')`
overlap, that is, have an address in common. -/
def overlaps (base length base' length' : Nat) : Bool :=
  decide (max base base' < min (base + length) (base' + length'))

/-- Modelled from the spec: the definitions of the `ShelfManager` functions are not among
the sources. Insertion into the reverse map, which is ordered by base. -/
def insertByBase (e : Nat × (ShelfId × Nat)) :
    List (Nat × (ShelfId × Nat)) → List (Nat × (ShelfId × Nat))
  | [] => [e]
  | x :: xs => if e.1 ≤ x.1 then e :: x :: xs else x :: insertByBase e xs

namespace ShelfManager

/-- The registry before any shelf is registered: both maps empty. -/
def empty : ShelfManager := ⟨[], []⟩

/-- Modelled from the spec: the definitions of the `ShelfManager` functions are not among
the sources. The forward entry `(base, length)` of a shelf id, if it is registered. -/
def find (m : ShelfManager) (shelf_id : ShelfId) : Option (Nat × Nat) :=
  (m.map_.find? (fun e => e.1 == shelf_id)).map (fun e => e.2)

/-- Modelled from the spec: the definitions of the `ShelfManager` functions are not among
the sources. `RegisterShelf(id, base, length)` inserts both entries and returns the base.
Precondition: no existing entry for `id`, and the interval `[base, base + length)` does not
overlap any registered interval; a violation returns a null base and leaves the state
unchanged. -/
def RegisterShelf (m : ShelfManager) (shelf_id : ShelfId) (base length : Nat) :
    Nat × ShelfManager :=
  if (m.find shelf_id).isSome || m.map_.any (fun e => overlaps base length e.2.1 e.2.2) then
    (kNullBase, m)
  else
    (base, { map_ := (shelf_id, (base, length)) :: m.map_
             reverse_map_ := insertByBase (base, (shelf_id, length)) m.reverse_map_ })

/-- Modelled from the spec: the definitions of the `ShelfManager` functions are not among
the sources. `UnregisterShelf(id)` removes both entries and returns the base formerly
mapped (null when the id is not registered). -/
def UnregisterShelf (m : ShelfManager) (shelf_id : ShelfId) : Nat × ShelfManager :=
  match m.find shelf_id with
  | none => (kNullBase, m)
  | some (base, length) =>
    (base, { map_ := m.map_.erase (shelf_id, (base, length))
             reverse_map_ := m.reverse_map_.erase (base, (shelf_id, length)) })

/-- Modelled from the spec: the definitions of the `ShelfManager` functions are not among
the sources. `LookupShelf(id)` returns the registered base or null. -/
def LookupShelf (m : ShelfManager) (shelf_id : ShelfId) : Nat :=
  match m.find shelf_id with
  | none => kNullBase
  | some (base, _) => base

end ShelfManager

/-- A call that changes the registry. -/
inductive ShelfManagerCall where
  | RegisterShelf (shelf_id : ShelfId) (base length : Nat)
  | UnregisterShelf (shelf_id : ShelfId)
  deriving DecidableEq, Repr

namespace ShelfManager

/-- The registry after one call. -/
def call (m : ShelfManager) : ShelfManagerCall → ShelfManager
  | .RegisterShelf shelf_id base length => (m.RegisterShelf shelf_id base length).2
  | .UnregisterShelf shelf_id => (m.UnregisterShelf shelf_id).2

/-- The registry after a sequence of calls. -/
def run (m : ShelfManager) : List ShelfManagerCall → ShelfManager
  | [] => m
  | c :: cs => run (m.call c) cs

/-- The invariant of the registry: each shelf id has at most one forward entry; no two
forward entries overlap; the reverse map holds exactly the forward entries, each once, in
the order of the bases. -/
def Inv (m : ShelfManager) : Prop :=
  (m.map_.map Prod.fst).Nodup
    ∧ m.map_.Pairwise (fun e e' => overlaps e.2.1 e.2.2 e'.2.1 e'.2.2 = false)
    ∧ (∀ id b len, (id, (b, len)) ∈ m.map_ ↔ (b, (id, len)) ∈ m.reverse_map_)
    ∧ m.reverse_map_.Nodup
    ∧ m.reverse_map_.Pairwise (fun a b => a.1 ≤ b.1)

end ShelfManager

/-! ## ShelfFile and ShelfRegion (spec 4.B, 4.D and 6)

The class `ShelfRegion` is declared in `shelf_usage/shelf_region.h`; its member functions,
the class `ShelfFile` and the error codes are defined in files that are not among the
sources. The file system is a part of the state and is passed explicitly. -/

/-- Modelled from the spec: `nvmm/error_code.h` is not among the sources. The error codes
listed by the spec. -/
inductive ErrorCode where
  | NO_ERROR
  | SHELF_FILE_NOT_FOUND
  | SHELF_EXISTS
  | SHELF_FILE_OPENED
  | ID_FOUND
  | ID_NOT_FOUND
  | POOL_FULL
  | OUT_OF_MEMORY
  | INVALID_ARG
  | CORRUPTED
  deriving DecidableEq, Repr

/-- Modelled from the spec: the file system is external. A file: its length in bytes and its
leading bytes; a byte of the file beyond `bytes` reads as zero. -/
structure FileData where
  length : Nat
  bytes : List Nat
  deriving DecidableEq, Repr

/-- Modelled from the spec: the file system is external. The files by pathname. -/
structure FileSystem where
  files : List (String × FileData)
  deriving DecidableEq, Repr

namespace FileSystem

/-- The file at `pathname`, if there is one. -/
def lookup (fs : FileSystem) (pathname : String) : Option FileData :=
  (fs.files.find? (fun e => e.1 == pathname)).map (fun e => e.2)

/-- Put file `f` at `pathname`, in place of the file there if there is one. -/
def store (fs : FileSystem) (pathname : String) (f : FileData) : FileSystem :=
  ⟨(pathname, f) :: fs.files.filter (fun e => !(e.1 == pathname))⟩

end FileSystem

/-- The eight bytes of a `u64` value, little-endian. -/
def encodeLE64 (v : Nat) : List Nat :=
  [v % 256, v / 256 % 256, v / 256 ^ 2 % 256, v / 256 ^ 3 % 256, v / 256 ^ 4 % 256,
    v / 256 ^ 5 % 256, v / 256 ^ 6 % 256, v / 256 ^ 7 % 256]

/-- The value of a little-endian sequence of bytes. -/
def decodeLE (bs : List Nat) : Nat := bs.foldr (fun b acc => b + 256 * acc) 0

/-- The `u64` value stored little-endian in the bytes `off .. off + 7` of a file. -/
def FileData.readLE64 (f : FileData) (off : Nat) : Nat :=
  decodeLE ((List.range 8).map (fun i => f.bytes.getD (off + i) 0))

/-- Modelled from the spec: the file system is external. `Truncate(size)` sets the file
size; bytes beyond it are dropped. -/
def FileData.truncate (f : FileData) (size : Nat) : FileData :=
  ⟨size, f.bytes.take size⟩

/-- Modelled from the spec: the file system is external. Write the bytes `bs` at the start
of the file. -/
def FileData.write0 (f : FileData) (bs : List Nat) : FileData :=
  ⟨max f.length bs.length, bs ++ f.bytes.drop bs.length⟩

/-- Modelled from the spec: the shelf header layout is given in spec 6. The magic number
`0x4E564D4D5348454C` of bytes 0..7. -/
def kShelfMagic : Nat := 0x4E564D4D5348454C

/-- Modelled from the spec: the shelf header layout is given in spec 6. The version, bytes
8..15, currently 1. -/
def kShelfVersion : Nat := 1

/-- Modelled from the spec: the shelf header layout is given in spec 6. The header takes the
first 4 KB of the file. -/
def kShelfHeaderSize : Nat := 4096

/-- Modelled from the spec: the shelf header layout is given in spec 6. The offset of the
logical payload size, bytes 16..23. -/
def kShelfSizeOffset : Nat := 16

/-- Modelled from the spec: `shelf_mgmt/shelf_file.h` is not among the sources. A `ShelfFile`
is a pathname and whether a file descriptor is open on it. -/
structure ShelfFile where
  pathname : String
  is_open : Bool
  deriving DecidableEq, Repr

namespace ShelfFile

/-- Modelled from the spec: `shelf_mgmt/shelf_file.h` is not among the sources.
`Create(mode)` fails with `SHELF_EXISTS` if the pathname already exists; otherwise it creates
a zero-length file. -/
def Create (sf : ShelfFile) (fs : FileSystem) : ErrorCode × FileSystem :=
  match fs.lookup sf.pathname with
  | some _ => (.SHELF_EXISTS, fs)
  | none => (.NO_ERROR, fs.store sf.pathname ⟨0, []⟩)

/-- Modelled from the spec: `shelf_mgmt/shelf_file.h` is not among the sources.
`Open(flags)`: a second open in the same process returns `SHELF_FILE_OPENED`; a pathname
that does not exist gives `SHELF_FILE_NOT_FOUND`; otherwise the descriptor is open. -/
def Open (sf : ShelfFile) (fs : FileSystem) (_ : Nat) : ErrorCode × ShelfFile :=
  if sf.is_open then (.SHELF_FILE_OPENED, sf)
  else
    match fs.lookup sf.pathname with
    | none => (.SHELF_FILE_NOT_FOUND, sf)
    | some _ => (.NO_ERROR, { sf with is_open := true })

end ShelfFile

/-- The data members of class `ShelfRegion`: `is_open_` and `shelf_`. -/
structure ShelfRegion where
  is_open_ : Bool
  shelf_ : ShelfFile
  deriving DecidableEq, Repr

namespace ShelfRegion

/-- Source `ShelfRegion(std::string pathname)`: a region on a pathname, not open. The body
of the constructor is not among the sources. -/
def new (pathname : String) : ShelfRegion := ⟨false, ⟨pathname, false⟩⟩

/-- Source `IsOpen()`. -/
def IsOpen (r : ShelfRegion) : Bool := r.is_open_

/-- Modelled from the spec: the definitions of the `ShelfRegion` functions are not among the
sources. `Create(size)` creates the backing file if needed, truncates it to `size + header`
and writes the magic header with the logical payload size, a `u64`. -/
def Create (r : ShelfRegion) (fs : FileSystem) (size : Nat) : ErrorCode × FileSystem :=
  (.NO_ERROR, fs.store r.shelf_.pathname
    ((((fs.lookup r.shelf_.pathname).getD ⟨0, []⟩).truncate (size + kShelfHeaderSize)).write0
      (encodeLE64 kShelfMagic ++ encodeLE64 kShelfVersion ++ encodeLE64 (size % 2 ^ 64))))

/-- Modelled from the spec: the definitions of the `ShelfRegion` functions are not among the
sources. `Open(flags)` opens the backing file; failure modes propagate. -/
def Open (r : ShelfRegion) (fs : FileSystem) (flags : Nat) : ErrorCode × ShelfRegion :=
  match r.shelf_.Open fs flags with
  | (.NO_ERROR, sf) => (.NO_ERROR, ⟨true, sf⟩)
  | (e, _) => (e, r)

/-- Modelled from the spec: the definitions of the `ShelfRegion` functions are not among the
sources. `Size()` returns the logical payload size from the header (not the file size); 0
is returned when there is no file. -/
def Size (r : ShelfRegion) (fs : FileSystem) : Nat :=
  match fs.lookup r.shelf_.pathname with
  | none => 0
  | some f => f.readLE64 kShelfSizeOffset

end ShelfRegion

/-! ## Heap operations other than allocations -/

namespace EpochZoneHeap

end EpochZoneHeap

/-! # Theorems -/

/-! ## Arithmetic of the encoding -/

/-- Masking with the low `k` bits is reduction modulo `2 ^ k`. -/
theorem and_mask_eq_mod (k x : Nat) : (2 ^ k - 1) &&& x = x % 2 ^ k := by
  rw [Nat.and_comm]
  exact Nat.and_pow_two_sub_one_eq_mod x k

theorem EncodeGlobalPtr3_eq (s : ShelfId) (r o : Nat) (hs : s.shelf_id_ < 2 ^ 8) (hr : r < 2 ^ 8)
    (ho : o < 2 ^ 48) :
    EncodeGlobalPtr3 s r o = s.shelf_id_ * 2 ^ 56 + r * 2 ^ 48 + o := by
  simp only [EncodeGlobalPtr3, add64, shl64, ShelfId.GetShelfId, kShelfIdShift, kReserveShift,
    ReserveTSize, OffsetTSize, Nat.shiftLeft_eq]
  omega

theorem EncodeGlobalPtr_eq (s : ShelfId) (o : Nat) (hs : s.shelf_id_ < 2 ^ 8) (ho : o < 2 ^ 48) :
    EncodeGlobalPtr s o = s.shelf_id_ * 2 ^ 56 + o := by
  simp only [EncodeGlobalPtr, add64, shl64, ShelfId.GetShelfId, kShelfIdShift,
    ReserveTSize, OffsetTSize, Nat.shiftLeft_eq]
  omega

theorem DecodeShelfId_eq (w : Nat) : DecodeShelfId w = ⟨w / 2 ^ 56 % 2 ^ 8⟩ := by
  simp only [DecodeShelfId, ShelfId.ofStorage, shr64, kShelfIdShift, ReserveTSize, OffsetTSize,
    ShelfIdStorageBits, Nat.shiftRight_eq_div_pow]

theorem DecodeOffset_eq (w : Nat) : DecodeOffset w = w % 2 ^ 48 := by
  have h : sub64 (shl64 1 OffsetTSize) 1 = 2 ^ 48 - 1 := by decide
  rw [DecodeOffset, and64, h, and_mask_eq_mod]

theorem DecodeReserveAndOffset_eq (w : Nat) : DecodeReserveAndOffset w = w % 2 ^ 56 := by
  have h : sub64 (shl64 1 (OffsetTSize + ReserveTSize)) 1 = 2 ^ 56 - 1 := by decide
  rw [DecodeReserveAndOffset, and64, h, and_mask_eq_mod]

/-- The reserve mask has no bit among the low eight, so `DecodeReserve` is constantly `0`. -/
theorem DecodeReserve_eq_zero (w : Nat) : DecodeReserve w = 0 := by
  have h : shl64 (sub64 (shl64 1 ReserveTSize) 1) kReserveShift = 255 * 2 ^ 48 := by decide
  rw [DecodeReserve, and64, h]
  show (255 * 2 ^ 48 &&& w) % 2 ^ 8 = 0
  have h0 : 255 * 2 ^ 48 &&& (2 ^ 8 - 1) = 0 := by decide
  rw [← Nat.and_pow_two_sub_one_eq_mod, Nat.and_comm (255 * 2 ^ 48) w, Nat.and_assoc, h0,
    Nat.and_zero]

theorem GetShelfId_ofShelfReserveOffset (s : ShelfId) (r o : Nat) (hs : s.shelf_id_ < 2 ^ 8)
    (hr : r < 2 ^ 8) (ho : o < 2 ^ 48) :
    (GlobalPtr.ofShelfReserveOffset s r o).GetShelfId = s := by
  rw [GlobalPtr.GetShelfId, GlobalPtr.ofShelfReserveOffset, DecodeShelfId_eq,
    EncodeGlobalPtr3_eq s r o hs hr ho]
  cases s with
  | mk v =>
    simp only [ShelfId.mk.injEq]
    simp only at hs
    omega

theorem GetOffset_ofShelfReserveOffset (s : ShelfId) (r o : Nat) (hs : s.shelf_id_ < 2 ^ 8)
    (hr : r < 2 ^ 8) (ho : o < 2 ^ 48) :
    (GlobalPtr.ofShelfReserveOffset s r o).GetOffset = o := by
  simp only [GlobalPtr.GetOffset, GlobalPtr.ofShelfReserveOffset, DecodeOffset_eq,
    EncodeGlobalPtr3_eq s r o hs hr ho]
  omega

theorem GetShelfId_ofShelfOffset (s : ShelfId) (o : Nat) (hs : s.shelf_id_ < 2 ^ 8)
    (ho : o < 2 ^ 48) : (GlobalPtr.ofShelfOffset s o).GetShelfId = s := by
  rw [GlobalPtr.GetShelfId, GlobalPtr.ofShelfOffset, DecodeShelfId_eq, EncodeGlobalPtr_eq s o hs ho]
  cases s with
  | mk v =>
    simp only [ShelfId.mk.injEq]
    simp only at hs
    omega

theorem GetOffset_ofShelfOffset (s : ShelfId) (o : Nat) (hs : s.shelf_id_ < 2 ^ 8)
    (ho : o < 2 ^ 48) : (GlobalPtr.ofShelfOffset s o).GetOffset = o := by
  simp only [GlobalPtr.GetOffset, GlobalPtr.ofShelfOffset, DecodeOffset_eq,
    EncodeGlobalPtr_eq s o hs ho]
  omega

/-! ## Claims on the GlobalPtr codec -/

/-- C1 (code evaluated at the failing input): the pointer built from shelf id 1, reserve 1
and offset 1 gives back its shelf id and its offset, but `GetReserve()` returns 0, not the
reserve 1 it was built with. -/
theorem C1_reserve_not_recovered :
    (GlobalPtr.ofShelfReserveOffset ⟨1⟩ 1 1).GetShelfId = ⟨1⟩
      ∧ (GlobalPtr.ofShelfReserveOffset ⟨1⟩ 1 1).GetOffset = 1
      ∧ (GlobalPtr.ofShelfReserveOffset ⟨1⟩ 1 1).GetReserve = 0
      ∧ (GlobalPtr.ofShelfReserveOffset ⟨1⟩ 1 1).GetReserve ≠ 1 := by
  decide

/-- C2: for an 8-bit shelf id `s`, an 8-bit reserve `r` and an offset `o < 2^48`, the word of
`GlobalPtr(s, r, o)` is `s * 2^56 + r * 2^48 + o`; the shelf id is its bits 63..56, the
reserve its bits 55..48 and the offset its bits 47..0. -/
theorem C2_bit_layout (s : ShelfId) (r o : Nat) (hs : s.shelf_id_ < 2 ^ 8) (hr : r < 2 ^ 8)
    (ho : o < 2 ^ 48) :
    (GlobalPtr.ofShelfReserveOffset s r o).ToUINT64 = s.shelf_id_ * 2 ^ 56 + r * 2 ^ 48 + o
      ∧ (GlobalPtr.ofShelfReserveOffset s r o).ToUINT64 / 2 ^ 56 = s.shelf_id_
      ∧ (GlobalPtr.ofShelfReserveOffset s r o).ToUINT64 / 2 ^ 48 % 2 ^ 8 = r
      ∧ (GlobalPtr.ofShelfReserveOffset s r o).ToUINT64 % 2 ^ 48 = o := by
  simp only [GlobalPtr.ToUINT64, GlobalPtr.ofShelfReserveOffset, EncodeGlobalPtr3_eq s r o hs hr ho]
  omega

/-- Witness of C2 at shelf id 3, reserve 5, offset 4096. -/
theorem C2_bit_layout_witness :
    (GlobalPtr.ofShelfReserveOffset ⟨3⟩ 5 4096).ToUINT64 = 3 * 2 ^ 56 + 5 * 2 ^ 48 + 4096
      ∧ (GlobalPtr.ofShelfReserveOffset ⟨3⟩ 5 4096).ToUINT64 / 2 ^ 56 = 3
      ∧ (GlobalPtr.ofShelfReserveOffset ⟨3⟩ 5 4096).ToUINT64 / 2 ^ 48 % 2 ^ 8 = 5
      ∧ (GlobalPtr.ofShelfReserveOffset ⟨3⟩ 5 4096).ToUINT64 % 2 ^ 48 = 4096 :=
  C2_bit_layout ⟨3⟩ 5 4096 (by decide) (by decide) (by decide)

/-- C3: for an 8-bit shelf id `s`, an 8-bit reserve `r` and an offset `o < 2^48`,
`GlobalPtr(s, r, o).IsValid()` holds exactly when `s` is a valid shelf id (`s != 0`) and
`o != 0`; the reserve does not appear in the condition. -/
theorem C3_valid_iff (s : ShelfId) (r o : Nat) (hs : s.shelf_id_ < 2 ^ 8) (hr : r < 2 ^ 8)
    (ho : o < 2 ^ 48) :
    (GlobalPtr.ofShelfReserveOffset s r o).IsValid = true
      ↔ (s.IsValid = true ∧ s.shelf_id_ ≠ 0 ∧ o ≠ 0) := by
  rw [GlobalPtr.IsValid, GetShelfId_ofShelfReserveOffset s r o hs hr ho,
    GetOffset_ofShelfReserveOffset s r o hs hr ho]
  simp [ShelfId.IsValid, GlobalPtr.IsValidOffset]

/-- Witness of C3 at shelf id 2, reserve 255, offset 64. -/
theorem C3_valid_iff_witness :
    (GlobalPtr.ofShelfReserveOffset ⟨2⟩ 255 64).IsValid = true
      ↔ ((⟨2⟩ : ShelfId).IsValid = true ∧ (⟨2⟩ : ShelfId).shelf_id_ ≠ 0 ∧ 64 ≠ 0) :=
  C3_valid_iff ⟨2⟩ 255 64 (by decide) (by decide) (by decide)

/-- C4 (the claim as stated fails): shelf id 0 with the 64-bit offset `2^56 + 1` gives a
pointer that `IsValid()` accepts, through both constructors (reserve 0 in the second). -/
theorem C4_invalid_shelf_counterexample :
    (⟨0⟩ : ShelfId).shelf_id_ = 0 ∧ 2 ^ 56 + 1 < 2 ^ 64
      ∧ (GlobalPtr.ofShelfOffset ⟨0⟩ (2 ^ 56 + 1)).IsValid = true
      ∧ (GlobalPtr.ofShelfReserveOffset ⟨0⟩ 0 (2 ^ 56 + 1)).IsValid = true := by
  decide

/-- Validity read off the word: the shelf-id byte and the 48-bit offset are both non-zero. -/
theorem GlobalPtr.IsValid_eq_false_iff (p : GlobalPtr) :
    p.IsValid = false ↔ (p.global_ptr_ / 2 ^ 56 % 2 ^ 8 = 0 ∨ p.global_ptr_ % 2 ^ 48 = 0) := by
  simp only [GlobalPtr.IsValid, GlobalPtr.GetShelfId, GlobalPtr.GetOffset, DecodeShelfId_eq,
    DecodeOffset_eq, ShelfId.IsValid, GlobalPtr.IsValidOffset, Bool.and_eq_false_iff,
    bne_eq_false_iff_eq]

/-- C4 (amended): for every shelf id `s`, every 8-bit reserve `r` and every 64-bit offset `o`:
if `o = 0` then `GlobalPtr(s, o)` and `GlobalPtr(s, r, o)` are both not valid; if `s` is the
invalid shelf id 0 then `GlobalPtr(s, o)` is not valid whenever `o < 2^56` and
`GlobalPtr(s, r, o)` is not valid whenever `r * 2^48 + o < 2^56`, that is, whenever the sum
does not carry into the shelf-id byte; and these bounds are exact: with `s = 0` a pointer
is not valid exactly when its sum (with 64-bit wrap-around) is below `2^56` or the low 48
bits of `o` are zero. -/
theorem C4_invalid_inputs (s : ShelfId) (r o : Nat) (hr : r < 2 ^ 8) (ho : o < 2 ^ 64) :
    (o = 0 → (GlobalPtr.ofShelfOffset s o).IsValid = false
        ∧ (GlobalPtr.ofShelfReserveOffset s r o).IsValid = false)
      ∧ (s.shelf_id_ = 0 → o < 2 ^ 56 → (GlobalPtr.ofShelfOffset s o).IsValid = false)
      ∧ (s.shelf_id_ = 0 → r * 2 ^ 48 + o < 2 ^ 56 →
          (GlobalPtr.ofShelfReserveOffset s r o).IsValid = false)
      ∧ (s.shelf_id_ = 0 →
          ((GlobalPtr.ofShelfOffset s o).IsValid = false ↔ (o < 2 ^ 56 ∨ o % 2 ^ 48 = 0)))
      ∧ (s.shelf_id_ = 0 →
          ((GlobalPtr.ofShelfReserveOffset s r o).IsValid = false
            ↔ ((r * 2 ^ 48 + o) % 2 ^ 64 < 2 ^ 56 ∨ o % 2 ^ 48 = 0))) := by
  have e2 : (GlobalPtr.ofShelfOffset s o).global_ptr_
      = (s.shelf_id_ * 2 ^ 56 % 2 ^ 64 + o) % 2 ^ 64 := by
    simp only [GlobalPtr.ofShelfOffset, EncodeGlobalPtr, add64, shl64, ShelfId.GetShelfId,
      kShelfIdShift, ReserveTSize, OffsetTSize, Nat.shiftLeft_eq]
  have e3 : (GlobalPtr.ofShelfReserveOffset s r o).global_ptr_
      = ((s.shelf_id_ * 2 ^ 56 % 2 ^ 64 + r * 2 ^ 48 % 2 ^ 64) % 2 ^ 64 + o) % 2 ^ 64 := by
    simp only [GlobalPtr.ofShelfReserveOffset, EncodeGlobalPtr3, add64, shl64, ShelfId.GetShelfId,
      kShelfIdShift, kReserveShift, ReserveTSize, OffsetTSize, Nat.shiftLeft_eq]
  simp only [GlobalPtr.IsValid_eq_false_iff, e2, e3]
  refine ⟨?_, ?_, ?_, ?_, ?_⟩
  · intro h0
    omega
  · intro h0 h56
    omega
  · intro h0 h56
    omega
  · intro h0
    omega
  · intro h0
    omega

/-- Witness of the amended C4 at shelf id 0, reserve 9 and the offset `5 * 2^48 + 64`, which
is above `2^48` and whose sums stay below `2^56`. -/
theorem C4_invalid_inputs_witness :
    (GlobalPtr.ofShelfOffset ⟨0⟩ (5 * 2 ^ 48 + 64)).IsValid = false
      ∧ (GlobalPtr.ofShelfReserveOffset ⟨0⟩ 9 (5 * 2 ^ 48 + 64)).IsValid = false :=
  ⟨(C4_invalid_inputs ⟨0⟩ 9 (5 * 2 ^ 48 + 64) (by decide) (by decide)).2.1 rfl
      (by decide),
    (C4_invalid_inputs ⟨0⟩ 9 (5 * 2 ^ 48 + 64) (by decide) (by decide)).2.2.1 rfl
      (by decide)⟩

/-- C5: for an 8-bit shelf id `s`, an 8-bit reserve `r` and an offset `o < 2^48`,
`GlobalPtr(s, r, o).GetReserveAndOffset()` is `r * 2^48 + o`, which is below `2^56`: no bit
of the shelf id is in it. -/
theorem C5_reserve_and_offset (s : ShelfId) (r o : Nat) (hs : s.shelf_id_ < 2 ^ 8)
    (hr : r < 2 ^ 8) (ho : o < 2 ^ 48) :
    (GlobalPtr.ofShelfReserveOffset s r o).GetReserveAndOffset = r * 2 ^ 48 + o
      ∧ (GlobalPtr.ofShelfReserveOffset s r o).GetReserveAndOffset < 2 ^ 56 := by
  simp only [GlobalPtr.GetReserveAndOffset, GlobalPtr.ofShelfReserveOffset,
    DecodeReserveAndOffset_eq, EncodeGlobalPtr3_eq s r o hs hr ho]
  omega

/-- Witness of C5 at shelf id 200, reserve 7, offset 640. -/
theorem C5_reserve_and_offset_witness :
    (GlobalPtr.ofShelfReserveOffset ⟨200⟩ 7 640).GetReserveAndOffset = 7 * 2 ^ 48 + 640
      ∧ (GlobalPtr.ofShelfReserveOffset ⟨200⟩ 7 640).GetReserveAndOffset < 2 ^ 56 :=
  C5_reserve_and_offset ⟨200⟩ 7 640 (by decide) (by decide) (by decide)

/-- C6: for 8-bit shelf ids `s`, `s'`, 8-bit reserves `r`, `r'` and offsets `o`, `o'` below
`2^48`, `GlobalPtr(s, r, o) == GlobalPtr(s', r', o')` holds exactly when `s = s'`, `r = r'`
and `o = o'`; and for all pointers `operator!=` is the negation of `operator==`. -/
theorem C6_equality_fieldwise (s s' : ShelfId) (r r' o o' : Nat)
    (hs : s.shelf_id_ < 2 ^ 8) (hr : r < 2 ^ 8) (ho : o < 2 ^ 48)
    (hs' : s'.shelf_id_ < 2 ^ 8) (hr' : r' < 2 ^ 8) (ho' : o' < 2 ^ 48) :
    (GlobalPtr.operator_eq (GlobalPtr.ofShelfReserveOffset s r o)
        (GlobalPtr.ofShelfReserveOffset s' r' o') = true ↔ (s = s' ∧ r = r' ∧ o = o'))
      ∧ ∀ p q : GlobalPtr, GlobalPtr.operator_ne p q = !(GlobalPtr.operator_eq p q) := by
  refine ⟨?_, fun p q => rfl⟩
  simp only [GlobalPtr.operator_eq, GlobalPtr.ofShelfReserveOffset,
    EncodeGlobalPtr3_eq s r o hs hr ho, EncodeGlobalPtr3_eq s' r' o' hs' hr' ho', beq_iff_eq]
  cases s with
  | mk v =>
    cases s' with
    | mk v' =>
      simp only [ShelfId.mk.injEq]
      simp only at hs hs'
      omega

/-- Witness of C6 at the triples (1, 2, 64) and (1, 3, 64). -/
theorem C6_equality_fieldwise_witness :
    (GlobalPtr.operator_eq (GlobalPtr.ofShelfReserveOffset ⟨1⟩ 2 64)
        (GlobalPtr.ofShelfReserveOffset ⟨1⟩ 3 64) = true
        ↔ ((⟨1⟩ : ShelfId) = ⟨1⟩ ∧ 2 = 3 ∧ 64 = 64))
      ∧ ∀ p q : GlobalPtr, GlobalPtr.operator_ne p q = !(GlobalPtr.operator_eq p q) :=
  C6_equality_fieldwise ⟨1⟩ ⟨1⟩ 2 3 64 64 (by decide) (by decide) (by decide) (by decide)
    (by decide) (by decide)

/-- C7: with pool id and shelf index accessors whose results fit `uint64_t`, streaming any
pointer `p` appends exactly `[` pool id of `p.GetShelfId()` `_` shelf index of
`p.GetShelfId()` `:` `p.GetOffset()` `]` in decimal; the printed offset is below `2^48`; and
for an in-range triple the text of `GlobalPtr(s, r, o)` is built from `s` and `o` alone, so
it does not depend on the reserve `r`. -/
theorem C7_textual_form (GetPoolId GetShelfIndex : ShelfId → Nat)
    (hPool : ∀ s, GetPoolId s < 2 ^ 64) (hIndex : ∀ s, GetShelfIndex s < 2 ^ 64) :
    (∀ (os : String) (p : GlobalPtr),
        GlobalPtr.operator_lshift GetPoolId GetShelfIndex os p
          = os ++ "[" ++ Nat.repr (GetPoolId p.GetShelfId) ++ "_"
              ++ Nat.repr (GetShelfIndex p.GetShelfId) ++ ":" ++ Nat.repr p.GetOffset ++ "]")
      ∧ (∀ p : GlobalPtr, p.GetOffset < 2 ^ 48)
      ∧ (∀ (os : String) (s : ShelfId) (r o : Nat), s.shelf_id_ < 2 ^ 8 → r < 2 ^ 8 → o < 2 ^ 48 →
        GlobalPtr.operator_lshift GetPoolId GetShelfIndex os (GlobalPtr.ofShelfReserveOffset s r o)
          = os ++ "[" ++ Nat.repr (GetPoolId s) ++ "_" ++ Nat.repr (GetShelfIndex s) ++ ":"
              ++ Nat.repr o ++ "]") := by
  have key : ∀ (os : String) (p : GlobalPtr),
      GlobalPtr.operator_lshift GetPoolId GetShelfIndex os p
        = os ++ "[" ++ Nat.repr (GetPoolId p.GetShelfId) ++ "_"
            ++ Nat.repr (GetShelfIndex p.GetShelfId) ++ ":" ++ Nat.repr p.GetOffset ++ "]" := by
    intro os p
    simp only [GlobalPtr.operator_lshift, Nat.mod_eq_of_lt (hPool _), Nat.mod_eq_of_lt (hIndex _)]
  refine ⟨key, ?_, ?_⟩
  · intro p
    rw [GlobalPtr.GetOffset, DecodeOffset_eq]
    exact Nat.mod_lt _ (by decide)
  · intro os s r o hs hr ho
    rw [key, GetShelfId_ofShelfReserveOffset s r o hs hr ho,
      GetOffset_ofShelfReserveOffset s r o hs hr ho]

/-- Witness of C7 with the accessors taking the high and the low four bits of the storage
value: `GlobalPtr(ShelfId 18, 7, 64)` is written as `[1_2:64]`. -/
theorem C7_textual_form_witness :
    GlobalPtr.operator_lshift (fun s => s.shelf_id_ / 16 % 16) (fun s => s.shelf_id_ % 16) ""
      (GlobalPtr.ofShelfReserveOffset ⟨18⟩ 7 64) = "[1_2:64]" :=
  ((C7_textual_form (fun s => s.shelf_id_ / 16 % 16) (fun s => s.shelf_id_ % 16)
      (fun s => Nat.lt_trans (Nat.mod_lt _ (by decide)) (by decide))
      (fun s => Nat.lt_trans (Nat.mod_lt _ (by decide)) (by decide))).2.2
    "" ⟨18⟩ 7 64 (by decide) (by decide) (by decide)).trans (by decide)

/-! ## Free lists: reading and writing a level -/

theorem listAt_set (fl : List (List Nat)) (i j : Nat) (v : List Nat) :
    listAt (fl.set i v) j = if i = j ∧ i < fl.length then v else listAt fl j := by
  induction fl generalizing i j with
  | nil => simp [listAt]
  | cons x xs ih =>
    cases i with
    | zero =>
      cases j with
      | zero => simp [listAt]
      | succ j => simp [listAt]
    | succ i =>
      cases j with
      | zero => simp [listAt]
      | succ j =>
        have h := ih i j
        simp only [listAt, List.set_cons_succ, List.getD_cons_succ, List.length_cons] at h ⊢
        rw [h]
        simp

theorem lt_length_of_mem_listAt {fl : List (List Nat)} {l c : Nat} (h : c ∈ listAt fl l) :
    l < fl.length := by
  by_contra hl
  have : listAt fl l = [] := by
    unfold listAt
    rw [List.getD_eq_default]
    omega
  rw [this] at h
  exact absurd h (List.not_mem_nil c)

theorem listAt_pushFree (fl : List (List Nat)) (l c j : Nat) :
    listAt (pushFree fl l c) j = if l = j ∧ l < fl.length then c :: listAt fl l else listAt fl j := by
  rw [pushFree, listAt_set]

theorem length_pushFree (fl : List (List Nat)) (l c : Nat) :
    (pushFree fl l c).length = fl.length := by
  rw [pushFree, List.length_set]

theorem chunkSize_pos (l : Nat) : 0 < chunkSize l := by
  unfold chunkSize kMinObjSize
  have : 0 < 2 ^ l := Nat.pow_pos (by decide)
  omega

theorem chunkSize_succ (l : Nat) : chunkSize (l + 1) = 2 * chunkSize l := by
  unfold chunkSize
  rw [Nat.pow_succ]
  ring

theorem chunkSize_double_le {j k : Nat} (h : j < k) : 2 * chunkSize j ≤ chunkSize k := by
  induction k with
  | zero => omega
  | succ k ih =>
    rw [chunkSize_succ k]
    rcases Nat.lt_succ_iff_lt_or_eq.mp h with h' | h'
    · have := ih h'
      have := chunkSize_pos k
      omega
    · subst h'
      omega

theorem chunkSize_mono {j k : Nat} (h : j ≤ k) : chunkSize j ≤ chunkSize k := by
  rcases Nat.lt_or_eq_of_le h with h' | h'
  · have := chunkSize_double_le h'
    omega
  · subst h'
    exact Nat.le_refl _

theorem listAt_eq_nil_of_le {fl : List (List Nat)} {l : Nat} (h : fl.length ≤ l) :
    listAt fl l = [] := by
  unfold listAt
  rw [List.getD_eq_default]
  exact h

theorem Zone.Inv_iff (z : Zone) : z.Inv ↔ WF z.free_list z.allocated := by
  constructor
  · rintro ⟨h1, h2, h3, h4, h5, h6⟩
    refine ⟨?_, ?_, ?_, h4, ?_, h6⟩
    · intro l
      by_cases hl : l < z.free_list.length
      · exact h1 l hl
      · rw [listAt_eq_nil_of_le (by omega)]
        exact List.nodup_nil
    · intro l c l' c' hc hc' hne
      exact h2 l (lt_length_of_mem_listAt hc) c hc l' (lt_length_of_mem_listAt hc') c' hc' hne
    · intro l c e hc he
      exact h3 l (lt_length_of_mem_listAt hc) c hc e he
    · intro l c hc
      exact h5 l (lt_length_of_mem_listAt hc) c hc
  · intro h
    exact ⟨fun l _ => h.nodup l, fun l _ c hc l' _ c' hc' hne => h.free_free l c l' c' hc hc' hne,
      fun l _ c hc e he => h.free_alloc l c e hc he, h.alloc_alloc,
      fun l _ c hc => h.free_bound l c hc, h.alloc_bound⟩

theorem Disj.symm {c l c' l' : Nat} (h : Disj c l c' l') : Disj c' l' c l := Or.symm h

/-- A chunk disjoint from a chunk is disjoint from every part of it. -/
theorem Disj.shrink {x i c k : Nat} (c' k' : Nat) (h : Disj x i c k) (h1 : c ≤ c')
    (h2 : c' + chunkSize k' ≤ c + chunkSize k) : Disj x i c' k' := by
  unfold Disj at h ⊢
  omega

/-! ## The allocation path -/

/-- What `popSplit` does: it pops `c` from the first non-empty level `k` at or above `l` and
leaves the second halves `c + 2^i * 64` on the levels `i` between `l` and `k`. -/
theorem popSplit_spec {fl fl' : List (List Nat)} {fuel l c : Nat}
    (h : popSplit fl fuel l = some (c, fl')) :
    ∃ k, l ≤ k ∧ k < l + fuel ∧ k < fl.length ∧ fl'.length = fl.length
      ∧ (∃ rest, listAt fl k = c :: rest ∧ listAt fl' k = rest)
      ∧ (∀ i, l ≤ i → i < k → listAt fl i = [] ∧ listAt fl' i = [c + chunkSize i])
      ∧ (∀ i, (i < l ∨ k < i) → listAt fl' i = listAt fl i) := by
  induction fuel generalizing l c fl' with
  | zero => simp [popSplit] at h
  | succ fuel ih =>
    unfold popSplit at h
    split at h
    · rename_i c0 rest hl
      simp only [Option.some.injEq, Prod.mk.injEq] at h
      obtain ⟨rfl, rfl⟩ := h
      have hlen : l < fl.length := lt_length_of_mem_listAt (c := c0) (by rw [hl]; simp)
      refine ⟨l, Nat.le_refl _, by omega, hlen, List.length_set _ _ _, ⟨rest, hl, ?_⟩, ?_, ?_⟩
      · rw [listAt_set]
        simp [hlen]
      · intro i h1 h2
        omega
      · intro i hi
        rw [listAt_set]
        have : ¬ (l = i ∧ l < fl.length) := by omega
        simp [this]
    · rename_i hl
      split at h
      · rename_i c1 fl1 hrec
        simp only [Option.some.injEq, Prod.mk.injEq] at h
        obtain ⟨rfl, rfl⟩ := h
        obtain ⟨k, hk1, hk2, hk3, hlen, ⟨rest, hr1, hr2⟩, hmid, hout⟩ := ih hrec
        have hl1 : l < fl1.length := by omega
        refine ⟨k, by omega, by omega, hk3, by rw [length_pushFree, hlen], ⟨rest, hr1, ?_⟩, ?_, ?_⟩
        · rw [listAt_pushFree]
          have : ¬ (l = k ∧ l < fl1.length) := by omega
          simp [this, hr2]
        · intro i h1 h2
          rw [listAt_pushFree]
          by_cases hil : l = i
          · subst hil
            have h0 : listAt fl1 l = listAt fl l := hout l (Or.inl (by omega))
            simp [hl1, h0, hl]
          · have := hmid i (by omega) h2
            have hn : ¬ (l = i ∧ l < fl1.length) := by omega
            simp [hn, this]
        · intro i hi
          rw [listAt_pushFree]
          have hn : ¬ (l = i ∧ l < fl1.length) := by omega
          simp only [hn, if_false]
          exact hout i (by omega)
      · simp at h
/-- Where the entries of the free lists come from after `popSplit`: an entry is an old entry
other than the popped chunk `(c, k)`, or the second half left on a level between `l` and `k`. -/
theorem popSplit_mem {fl fl' : List (List Nat)} {fuel l c : Nat} (hnd : ∀ i, (listAt fl i).Nodup)
    (h : popSplit fl fuel l = some (c, fl')) :
    ∃ k, l ≤ k ∧ k < l + fuel ∧ c ∈ listAt fl k ∧ fl'.length = fl.length
      ∧ (∀ i, (listAt fl' i).Nodup)
      ∧ ∀ i x, x ∈ listAt fl' i →
          (x ∈ listAt fl i ∧ (x, i) ≠ (c, k)) ∨ (l ≤ i ∧ i < k ∧ x = c + chunkSize i) := by
  obtain ⟨k, hk1, hk2, _, hlen, ⟨rest, hr1, hr2⟩, hmid, hout⟩ := popSplit_spec h
  have hndk := hnd k
  rw [hr1, List.nodup_cons] at hndk
  refine ⟨k, hk1, hk2, by rw [hr1]; simp, hlen, ?_, ?_⟩
  · intro i
    by_cases h1 : i < l ∨ k < i
    · rw [hout i h1]
      exact hnd i
    · by_cases h2 : i = k
      · subst h2
        rw [hr2]
        exact hndk.2
      · rw [(hmid i (by omega) (by omega)).2]
        exact List.nodup_singleton _
  · intro i x hx
    by_cases h1 : i < l ∨ k < i
    · rw [hout i h1] at hx
      left
      refine ⟨hx, fun heq => ?_⟩
      simp only [Prod.mk.injEq] at heq
      omega
    · by_cases h2 : i = k
      · subst h2
        rw [hr2] at hx
        left
        refine ⟨by rw [hr1]; exact List.mem_cons_of_mem _ hx, fun heq => ?_⟩
        simp only [Prod.mk.injEq] at heq
        exact hndk.1 (heq.1 ▸ hx)
      · rw [(hmid i (by omega) (by omega)).2] at hx
        right
        exact ⟨by omega, by omega, List.mem_singleton.mp hx⟩

/-- The allocation path keeps the zone well-formed; the chunk handed out was the start of a
free chunk and lies inside the offset space. -/
theorem WF_popSplit {fl fl' : List (List Nat)} {al : List (Nat × Nat)} {fuel l c : Nat}
    (hw : WF fl al) (h : popSplit fl fuel l = some (c, fl')) :
    WF fl' ((c, l) :: al) ∧ (∃ k, l ≤ k ∧ c ∈ listAt fl k) ∧ fl'.length = fl.length := by
  obtain ⟨k, hk1, _, hck, hlen, hnd', hmem⟩ := popSplit_mem hw.nodup h
  have hmono : chunkSize l ≤ chunkSize k := chunkSize_mono hk1
  have hbk := hw.free_bound k c hck
  -- every new free entry, seen against the popped chunk `(c, k)`
  have hsub : ∀ i x, x ∈ listAt fl' i → l ≤ i → i < k → x = c + chunkSize i →
      c + chunkSize l ≤ x ∧ x + chunkSize i ≤ c + chunkSize k := by
    intro i x _ hli hik hx
    have h1 := chunkSize_double_le hik
    have h2 := chunkSize_mono hli
    omega
  refine ⟨⟨hnd', ?_, ?_, ?_, ?_, ?_⟩, ⟨k, hk1, hck⟩, hlen⟩
  · intro i x i' x' hx hx' hne
    rcases hmem i x hx with ⟨ho, hne1⟩ | ⟨hb1, hb2, hb3⟩
    · rcases hmem i' x' hx' with ⟨ho', _⟩ | ⟨hb1', hb2', hb3'⟩
      · exact hw.free_free i x i' x' ho ho' hne
      · have hd := hw.free_free i x k c ho hck hne1
        have hs := hsub i' x' hx' hb1' hb2' hb3'
        exact hd.shrink x' i' (by omega) hs.2
    · have hs := hsub i x hx hb1 hb2 hb3
      rcases hmem i' x' hx' with ⟨ho', hne1'⟩ | ⟨hb1', hb2', hb3'⟩
      · have hd := hw.free_free i' x' k c ho' hck hne1'
        exact (hd.shrink x i (by omega) hs.2).symm
      · have hs' := hsub i' x' hx' hb1' hb2' hb3'
        have hii : i ≠ i' := by
          intro heq
          subst heq
          exact hne (by rw [hb3, hb3'])
        unfold Disj
        rcases Nat.lt_or_gt_of_ne hii with hlt | hgt
        · have := chunkSize_double_le hlt
          omega
        · have := chunkSize_double_le hgt
          omega
  · intro i x e hx he
    rcases List.mem_cons.mp he with rfl | he
    · rcases hmem i x hx with ⟨ho, hne1⟩ | ⟨hb1, hb2, hb3⟩
      · have hd := hw.free_free i x k c ho hck hne1
        exact hd.shrink c l (Nat.le_refl _) (by simpa using hmono)
      · have hs := hsub i x hx hb1 hb2 hb3
        unfold Disj
        simp only
        omega
    · rcases hmem i x hx with ⟨ho, _⟩ | ⟨hb1, hb2, hb3⟩
      · exact hw.free_alloc i x e ho he
      · have hd := hw.free_alloc k c e hck he
        have hs := hsub i x hx hb1 hb2 hb3
        exact (hd.symm.shrink x i (by omega) hs.2).symm
  · rw [List.pairwise_cons]
    refine ⟨fun e he => ?_, hw.alloc_alloc⟩
    have hd := hw.free_alloc k c e hck he
    exact (hd.symm.shrink c l (Nat.le_refl _) (by omega)).symm
  · intro i x hx
    rcases hmem i x hx with ⟨ho, _⟩ | ⟨hb1, hb2, hb3⟩
    · exact hw.free_bound i x ho
    · have hs := hsub i x hx hb1 hb2 hb3
      omega
  · intro e he
    rcases List.mem_cons.mp he with rfl | he
    · simp only
      omega
    · exact hw.alloc_bound e he
/-! ## The free path -/

theorem pairwise_erase_rel {α : Type} [BEq α] [LawfulBEq α] (R : α → α → Prop)
    (hsymm : ∀ a b, R a b → R b a) {al : List α} (hp : al.Pairwise R) {a : α} (ha : a ∈ al) :
    ∀ e ∈ al.erase a, R a e := by
  induction al with
  | nil => exact absurd ha (List.not_mem_nil a)
  | cons b t ih =>
    rw [List.pairwise_cons] at hp
    by_cases hba : b = a
    · subst hba
      rw [List.erase_cons_head]
      exact hp.1
    · rw [List.erase_cons_tail (by simpa using hba)]
      have hat : a ∈ t := by
        rcases List.mem_cons.mp ha with h | h
        · exact absurd h.symm hba
        · exact h
      intro e he
      rcases List.mem_cons.mp he with rfl | he
      · exact hsymm _ _ (hp.1 a hat)
      · exact ih hp.2 hat e he

theorem Disj.irrefl {c l : Nat} (h : Disj c l c l) : False := by
  have := chunkSize_pos l
  unfold Disj at h
  omega

/-- Returning a handed-out chunk to the free list of its level keeps the zone well-formed. -/
theorem WF_pushFree {fl : List (List Nat)} {al : List (Nat × Nat)} {c l : Nat}
    (hw : WF fl al) (hc : (c, l) ∈ al) : WF (pushFree fl l c) (al.erase (c, l)) := by
  have hmem : ∀ i x, x ∈ listAt (pushFree fl l c) i → x ∈ listAt fl i ∨ (x, i) = (c, l) := by
    intro i x hx
    rw [listAt_pushFree] at hx
    split at hx
    · rename_i hli
      obtain ⟨rfl, _⟩ := hli
      rcases List.mem_cons.mp hx with rfl | hx
      · exact Or.inr rfl
      · exact Or.inl hx
    · exact Or.inl hx
  have hsub : ∀ e ∈ al.erase (c, l), e ∈ al := fun e he => List.mem_of_mem_erase he
  have hnew : ∀ e ∈ al.erase (c, l), Disj c l e.1 e.2 :=
    pairwise_erase_rel (fun e e' => Disj e.1 e.2 e'.1 e'.2) (fun _ _ h => Disj.symm h)
      hw.alloc_alloc hc
  refine ⟨?_, ?_, ?_, ?_, ?_, ?_⟩
  · intro i
    rw [listAt_pushFree]
    split
    · rename_i hli
      rw [List.nodup_cons]
      exact ⟨fun hin => (hw.free_alloc l c (c, l) hin hc).irrefl, hw.nodup l⟩
    · exact hw.nodup i
  · intro i x i' x' hx hx' hne
    rcases hmem i x hx with ho | heq
    · rcases hmem i' x' hx' with ho' | heq'
      · exact hw.free_free i x i' x' ho ho' hne
      · simp only [Prod.mk.injEq] at heq'
        obtain ⟨rfl, rfl⟩ := heq'
        exact hw.free_alloc i x (x', i') ho hc
    · simp only [Prod.mk.injEq] at heq
      obtain ⟨rfl, rfl⟩ := heq
      rcases hmem i' x' hx' with ho' | heq'
      · exact (hw.free_alloc i' x' (x, i) ho' hc).symm
      · exact absurd heq'.symm hne
  · intro i x e hx he
    rcases hmem i x hx with ho | heq
    · exact hw.free_alloc i x e ho (hsub e he)
    · simp only [Prod.mk.injEq] at heq
      obtain ⟨rfl, rfl⟩ := heq
      exact hnew e he
  · exact hw.alloc_alloc.sublist (List.erase_sublist _ _)
  · intro i x hx
    rcases hmem i x hx with ho | heq
    · exact hw.free_bound i x ho
    · simp only [Prod.mk.injEq] at heq
      obtain ⟨rfl, rfl⟩ := heq
      exact hw.alloc_bound (x, i) hc
  · intro e he
    exact hw.alloc_bound e (hsub e he)

/-! ## The merge path -/

/-- A chunk disjoint from both halves of a chunk is disjoint from the chunk. -/
theorem Disj.union {c l x i : Nat} (h1 : Disj c l x i) (h2 : Disj (c + chunkSize l) l x i) :
    Disj c (l + 1) x i := by
  have := chunkSize_pos i
  have := chunkSize_succ l
  unfold Disj at h1 h2 ⊢
  omega

theorem WF_mergePair {fl : List (List Nat)} {al : List (Nat × Nat)} (hw : WF fl al) (l c : Nat) :
    WF (mergePair fl l c) al := by
  unfold mergePair
  split
  · rename_i hcond
    obtain ⟨hc1, hc2⟩ := hcond
    have hcs := chunkSize_pos l
    have hcs1 := chunkSize_succ l
    have hmem : ∀ i x, x ∈ listAt (pushFree (fl.set l (((listAt fl l).erase c).erase
        (c + chunkSize l))) (l + 1) c) i →
        (x ∈ listAt fl i ∧ (x, i) ≠ (c, l) ∧ (x, i) ≠ (c + chunkSize l, l))
          ∨ (x, i) = (c, l + 1) := by
      intro i x hx
      rw [listAt_pushFree, listAt_set] at hx
      have hn1 : ¬ (l = l + 1 ∧ l < fl.length) := by omega
      simp only [hn1, if_false, listAt_set] at hx
      split at hx
      · rename_i hli
        obtain ⟨rfl, _⟩ := hli
        rcases List.mem_cons.mp hx with rfl | hx
        · exact Or.inr rfl
        · left
          refine ⟨hx, ?_, ?_⟩ <;> (simp only [ne_eq, Prod.mk.injEq]; omega)
      · split at hx
        · rename_i hli
          obtain ⟨rfl, _⟩ := hli
          have hnd := hw.nodup l
          have hnd1 : ((listAt fl l).erase c).Nodup := hnd.erase c
          rw [hnd1.mem_erase_iff, hnd.mem_erase_iff] at hx
          left
          refine ⟨hx.2.2, ?_, ?_⟩
          · simp only [ne_eq, Prod.mk.injEq, and_true]
            exact hx.2.1
          · simp only [ne_eq, Prod.mk.injEq, and_true]
            exact hx.1
        · left
          have hil : l ≠ i := by
            intro heq
            subst heq
            rename_i hn
            exact hn ⟨rfl, lt_length_of_mem_listAt hc1⟩
          refine ⟨hx, ?_, ?_⟩ <;>
            (simp only [ne_eq, Prod.mk.injEq]; intro hh; exact hil hh.2.symm)
    have hold : ∀ i x, x ∈ listAt fl i → (x, i) ≠ (c, l) → (x, i) ≠ (c + chunkSize l, l) →
        Disj c (l + 1) x i := by
      intro i x hx h1 h2
      exact Disj.union (hw.free_free l c i x hc1 hx (Ne.symm h1))
        (hw.free_free l (c + chunkSize l) i x hc2 hx (Ne.symm h2))
    have hnotin : c ∉ listAt fl (l + 1) := by
      intro hin
      have hd := hw.free_free l c (l + 1) c hc1 hin (by simp)
      unfold Disj at hd
      omega
    refine ⟨?_, ?_, ?_, hw.alloc_alloc, ?_, hw.alloc_bound⟩
    · intro i
      rw [listAt_pushFree, listAt_set]
      have hn1 : ¬ (l = l + 1 ∧ l < fl.length) := by omega
      simp only [hn1, if_false, listAt_set, List.length_set]
      split
      · rw [List.nodup_cons]
        exact ⟨hnotin, hw.nodup _⟩
      · split
        · exact ((hw.nodup l).erase c).erase _
        · exact hw.nodup i
    · intro i x i' x' hx hx' hne
      rcases hmem i x hx with ⟨ho, h1, h2⟩ | heq
      · rcases hmem i' x' hx' with ⟨ho', _, _⟩ | heq'
        · exact hw.free_free i x i' x' ho ho' hne
        · simp only [Prod.mk.injEq] at heq'
          obtain ⟨rfl, rfl⟩ := heq'
          exact (hold i x ho h1 h2).symm
      · simp only [Prod.mk.injEq] at heq
        obtain ⟨rfl, rfl⟩ := heq
        rcases hmem i' x' hx' with ⟨ho', h1', h2'⟩ | heq'
        · exact hold i' x' ho' h1' h2'
        · exact absurd heq'.symm hne
    · intro i x e hx he
      rcases hmem i x hx with ⟨ho, _, _⟩ | heq
      · exact hw.free_alloc i x e ho he
      · simp only [Prod.mk.injEq] at heq
        obtain ⟨rfl, rfl⟩ := heq
        exact Disj.union (hw.free_alloc l x e hc1 he) (hw.free_alloc l _ e hc2 he)
    · intro i x hx
      rcases hmem i x hx with ⟨ho, _, _⟩ | heq
      · exact hw.free_bound i x ho
      · simp only [Prod.mk.injEq] at heq
        obtain ⟨rfl, rfl⟩ := heq
        have := hw.free_bound l _ hc2
        omega
  · exact hw

theorem WF_foldl_mergePair {al : List (Nat × Nat)} (l : Nat) (cs : List Nat) :
    ∀ fl : List (List Nat), WF fl al → WF (cs.foldl (fun f c => mergePair f l c) fl) al := by
  induction cs with
  | nil => intro fl hw; exact hw
  | cons c cs ih =>
    intro fl hw
    rw [List.foldl_cons]
    exact ih _ (WF_mergePair hw l c)

theorem WF_mergeLevel {fl : List (List Nat)} {al : List (Nat × Nat)} (hw : WF fl al) (l : Nat) :
    WF (mergeLevel fl l) al :=
  WF_foldl_mergePair l _ fl hw

theorem WF_mergeLevels {al : List (Nat × Nat)} (n : Nat) :
    ∀ (fl : List (List Nat)) (l : Nat), WF fl al → WF (mergeLevels fl n l) al := by
  induction n with
  | zero => intro fl l hw; exact hw
  | succ n ih =>
    intro fl l hw
    exact ih _ _ (WF_mergeLevel hw l)

/-! ## Zone operations and well-formedness -/

theorem Zone.alloc_some {z z' : Zone} {bytes c : Nat} (h : z.alloc bytes = some (c, z')) :
    ∃ l fl', levelFor z.levels bytes = some l
      ∧ popSplit z.free_list (z.levels - l) l = some (c, fl')
      ∧ z' = { z with free_list := fl', allocated := (c, l) :: z.allocated } := by
  unfold Zone.alloc at h
  split at h
  · simp at h
  · rename_i l hl
    split at h
    · simp at h
    · rename_i c' fl' hp
      simp only [Option.some.injEq, Prod.mk.injEq] at h
      obtain ⟨rfl, rfl⟩ := h
      exact ⟨l, fl', hl, hp, rfl⟩

/-- An allocation keeps the zone well-formed; the chunk handed out lies inside the offset
space and its offset is not the offset of a chunk handed out before. -/
theorem Zone.Inv_alloc {z z' : Zone} {bytes c : Nat} (hinv : z.Inv)
    (h : z.alloc bytes = some (c, z')) :
    z'.Inv ∧ c < kOffsetSpace ∧ (∀ e ∈ z.allocated, e.1 ≠ c)
      ∧ (∀ e ∈ z.allocated, e ∈ z'.allocated) := by
  obtain ⟨l, fl', _, hp, rfl⟩ := Zone.alloc_some h
  have hw := (Zone.Inv_iff z).mp hinv
  obtain ⟨hw', ⟨k, _, hck⟩, _⟩ := WF_popSplit hw hp
  refine ⟨(Zone.Inv_iff _).mpr hw', ?_, ?_, ?_⟩
  · have := hw.free_bound k c hck
    have := chunkSize_pos k
    omega
  · intro e he heq
    have hd := hw.free_alloc k c e hck he
    rw [heq] at hd
    have := chunkSize_pos k
    have := chunkSize_pos e.2
    unfold Disj at hd
    omega
  · intro e he
    exact List.mem_cons_of_mem _ he

theorem Zone.free_eq (z : Zone) (off : Nat) :
    z.free off = z ∨ ∃ l, (off, l) ∈ z.allocated
      ∧ z.free off = { z with free_list := pushFree z.free_list l off,
                              allocated := z.allocated.erase (off, l) } := by
  unfold Zone.free
  split
  · exact Or.inl rfl
  · rename_i c l hf
    have hm := List.mem_of_find?_eq_some hf
    have hc := List.find?_some hf
    simp only [beq_iff_eq] at hc
    subst hc
    exact Or.inr ⟨l, hm, rfl⟩

/-- Freeing keeps the zone well-formed and keeps every handed-out chunk at another offset. -/
theorem Zone.Inv_free {z : Zone} (hinv : z.Inv) (off : Nat) :
    (z.free off).Inv ∧ ∀ e ∈ z.allocated, e.1 ≠ off → e ∈ (z.free off).allocated := by
  rcases Zone.free_eq z off with h | ⟨l, hm, h⟩
  · rw [h]
    exact ⟨hinv, fun e he _ => he⟩
  · rw [h]
    refine ⟨(Zone.Inv_iff _).mpr (WF_pushFree ((Zone.Inv_iff z).mp hinv) hm), ?_⟩
    intro e he hne
    refine (List.mem_erase_of_ne ?_).mpr he
    intro heq
    exact hne (by rw [heq])

theorem Zone.Inv_merge {z : Zone} (hinv : z.Inv) : z.merge.Inv :=
  (Zone.Inv_iff _).mpr (WF_mergeLevels _ _ _ ((Zone.Inv_iff z).mp hinv))

theorem Zone.merge_allocated (z : Zone) : z.merge.allocated = z.allocated := rfl

/-- Immediate-free reuse on the zone: an allocation, the free of its chunk and the same
allocation again give the same offset. -/
theorem Zone.alloc_free_alloc {z z1 : Zone} {bytes c : Nat} (h : z.alloc bytes = some (c, z1)) :
    ∃ z2, (z1.free c).alloc bytes = some (c, z2) := by
  obtain ⟨l, fl', hl, hp, rfl⟩ := Zone.alloc_some h
  obtain ⟨k, hk1, hk2, hk3, hlen, _, _, _⟩ := popSplit_spec hp
  have hfree : Zone.free { z with free_list := fl', allocated := (c, l) :: z.allocated } c
      = { z with free_list := pushFree fl' l c, allocated := z.allocated } := by
    simp [Zone.free]
  rw [hfree]
  obtain ⟨fuel, hfuel⟩ : ∃ fuel, z.levels - l = fuel + 1 := ⟨z.levels - l - 1, by omega⟩
  have hhead : listAt (pushFree fl' l c) l = c :: listAt fl' l := by
    rw [listAt_pushFree]
    have : l < fl'.length := by omega
    simp [this]
  have hres : Zone.alloc { z with free_list := pushFree fl' l c, allocated := z.allocated } bytes
      = some (c, { z with free_list := (pushFree fl' l c).set l (listAt fl' l),
                          allocated := (c, l) :: z.allocated }) := by
    simp only [Zone.alloc, hl, hfuel, popSplit, hhead]
  exact ⟨_, hres⟩

/-! ## Heap operations and well-formedness -/

theorem GlobalPtr.null_offset : GlobalPtr.null.GetOffset = 0 := by decide

theorem ZoneHeap.Alloc_cases (h : ZoneHeap) (bytes : Nat) :
    (h.zone.alloc bytes = none ∧ h.Alloc bytes = (GlobalPtr.null, h))
      ∨ ∃ c z', h.zone.alloc bytes = some (c, z')
          ∧ h.Alloc bytes = (GlobalPtr.ofShelfOffset h.shelf_id c, { h with zone := z' }) := by
  unfold ZoneHeap.Alloc
  cases hz : h.zone.alloc bytes with
  | none => exact Or.inl ⟨rfl, rfl⟩
  | some r =>
    obtain ⟨c, z'⟩ := r
    exact Or.inr ⟨c, z', rfl, rfl⟩

theorem ZoneHeap.Inv_Alloc {h : ZoneHeap} (hinv : h.Inv) (bytes : Nat) :
    (h.Alloc bytes).2.Inv ∧ (h.Alloc bytes).2.shelf_id = h.shelf_id
      ∧ (∀ e ∈ h.zone.allocated, e ∈ (h.Alloc bytes).2.zone.allocated)
      ∧ (∀ e ∈ h.zone.allocated, e.1 ≠ 0 → (h.Alloc bytes).1.GetOffset ≠ e.1) := by
  rcases ZoneHeap.Alloc_cases h bytes with ⟨_, he⟩ | ⟨c, z', hz, he⟩
  · rw [he]
    refine ⟨hinv, rfl, fun e h => h, fun e _ hne => ?_⟩
    rw [GlobalPtr.null_offset]
    exact Ne.symm hne
  · rw [he]
    obtain ⟨hi, hb, hne, hsub⟩ := Zone.Inv_alloc hinv.2 hz
    refine ⟨⟨hinv.1, hi⟩, rfl, hsub, fun e hm _ => ?_⟩
    simp only
    rw [GetOffset_ofShelfOffset h.shelf_id c hinv.1 hb]
    exact Ne.symm (hne e hm)

theorem ZoneHeap.Inv_Free {h : ZoneHeap} (hinv : h.Inv) (ptr : GlobalPtr) :
    (h.Free ptr).Inv
      ∧ ∀ e ∈ h.zone.allocated, e.1 ≠ ptr.GetOffset → e ∈ (h.Free ptr).zone.allocated :=
  ⟨⟨hinv.1, (Zone.Inv_free hinv.2 _).1⟩, (Zone.Inv_free hinv.2 _).2⟩

theorem ZoneHeap.Inv_Merge {h : ZoneHeap} (hinv : h.Inv) : h.Merge.Inv :=
  ⟨hinv.1, Zone.Inv_merge hinv.2⟩

/-! ## Claims on the heap -/

/-! ## A created heap is well-formed -/

/-- The free space of a fresh 128 MB heap, level by level: the blocks `[0, 8)` (header) and
`[4096, 8192)` (merge bitmap, offset `4096 * 64 = 262144`, level 12) are not free, every
other block is. -/
theorem Zone.create_128MB_layout :
    (Zone.create (128 * 1024 * 1024)).levels = 21
      ∧ (Zone.create (128 * 1024 * 1024)).free_list
          = [[], [], [], [8 * 64], [16 * 64], [32 * 64], [64 * 64], [128 * 64], [256 * 64],
              [512 * 64], [1024 * 64], [2048 * 64], [], [8192 * 64], [16384 * 64], [32768 * 64],
              [65536 * 64], [131072 * 64], [262144 * 64], [524288 * 64], [1048576 * 64]]
      ∧ (Zone.create (128 * 1024 * 1024)).allocated = [] := by
  decide

theorem listAt_replicate_append (n l : Nat) (v : List Nat) :
    listAt (List.replicate n [] ++ [v]) l = if l = n then v else [] := by
  induction n generalizing l with
  | zero =>
    cases l with
    | zero => simp [listAt]
    | succ l => simp [listAt]
  | succ n ih =>
    cases l with
    | zero => simp [listAt, List.replicate_succ]
    | succ l =>
      have h := ih l
      simp only [listAt, List.replicate_succ, List.cons_append, List.getD_cons_succ] at h ⊢
      rw [h]
      simp

theorem WF.tail {fl : List (List Nat)} {al : List (Nat × Nat)} {e : Nat × Nat}
    (hw : WF fl (e :: al)) : WF fl al :=
  ⟨hw.nodup, hw.free_free, fun l c e' hc he' => hw.free_alloc l c e' hc (List.mem_cons_of_mem _ he'),
    (List.pairwise_cons.mp hw.alloc_alloc).2, hw.free_bound,
    fun e' he' => hw.alloc_bound e' (List.mem_cons_of_mem _ he')⟩

theorem Zone.Inv_reserve {z : Zone} (hinv : z.Inv) (bytes : Nat) : (z.reserve bytes).Inv := by
  unfold Zone.reserve
  cases hz : z.alloc bytes with
  | none => exact hinv
  | some r =>
    obtain ⟨c, z'⟩ := r
    obtain ⟨l, fl', _, hp, rfl⟩ := Zone.alloc_some hz
    have hw := (WF_popSplit ((Zone.Inv_iff z).mp hinv) hp).1
    exact (Zone.Inv_iff _).mpr hw.tail

/-- A zone created on a shelf that fits the 48-bit offset space is well-formed. -/
theorem Zone.Inv_create (size : Nat) (hsize : size ≤ kOffsetSpace) : (Zone.create size).Inv := by
  unfold Zone.create
  apply Zone.Inv_reserve
  apply Zone.Inv_reserve
  rw [Zone.Inv_iff]
  generalize floorLog2 (size / kMinObjSize) = K
  have htop := chunkSize_pos (K - 1)
  generalize hT : chunkSize (K - 1) = top at htop
  have hmem : ∀ l c, c ∈ listAt (List.replicate (K - 1) [] ++
      [(List.range (size / top)).map (fun i => i * top)]) l →
      l = K - 1 ∧ ∃ i, i < size / top ∧ c = i * top := by
    intro l c hc
    rw [listAt_replicate_append] at hc
    split at hc
    · rename_i hl
      rw [List.mem_map] at hc
      obtain ⟨i, hi, rfl⟩ := hc
      exact ⟨hl, i, List.mem_range.mp hi, rfl⟩
    · exact absurd hc (List.not_mem_nil c)
  refine ⟨?_, ?_, ?_, List.Pairwise.nil, ?_, ?_⟩
  · intro l
    rw [listAt_replicate_append]
    split
    · refine (List.nodup_range _).map ?_
      intro a b hab
      exact Nat.eq_of_mul_eq_mul_right htop hab
    · exact List.nodup_nil
  · intro l c l' c' hc hc' hne
    obtain ⟨rfl, i, _, rfl⟩ := hmem l c hc
    obtain ⟨rfl, j, _, rfl⟩ := hmem l' c' hc'
    have hij : i ≠ j := by
      intro h
      subst h
      exact hne rfl
    unfold Disj
    rw [hT]
    rcases Nat.lt_or_gt_of_ne hij with h | h
    · left
      have := Nat.mul_le_mul_right top (Nat.succ_le_of_lt h)
      rw [Nat.succ_mul] at this
      exact this
    · right
      have := Nat.mul_le_mul_right top (Nat.succ_le_of_lt h)
      rw [Nat.succ_mul] at this
      exact this
  · intro l c e _ he
    exact absurd he (List.not_mem_nil e)
  · intro l c hc
    obtain ⟨rfl, i, hi, rfl⟩ := hmem l c hc
    rw [hT]
    have h1 := Nat.mul_le_mul_right top (Nat.succ_le_of_lt hi)
    rw [Nat.succ_mul] at h1
    have h2 := Nat.div_mul_le_self size top
    omega
  · intro e he
    exact absurd he (List.not_mem_nil e)

/-- A heap created on an 8-bit shelf id and a shelf inside the offset space is well-formed. -/
theorem ZoneHeap.Inv_Create (sid : ShelfId) (size : Nat) (hs : sid.shelf_id_ < 2 ^ 8)
    (hsize : size ≤ kOffsetSpace) : (ZoneHeap.Create sid size).Inv :=
  ⟨hs, Zone.Inv_create size hsize⟩
/-! ## Every reachable heap is well-formed -/

theorem foldl_Free_Inv (es : List (GlobalPtr × Nat)) :
    ∀ hp : ZoneHeap, hp.Inv → (es.foldl (fun hp e => hp.Free e.1) hp).Inv := by
  induction es with
  | nil => intro hp hinv; exact hinv
  | cons e es ih =>
    intro hp hinv
    rw [List.foldl_cons]
    exact ih _ (ZoneHeap.Inv_Free hinv e.1).1

theorem HeapSystem.Inv_step {s : HeapSystem} (hinv : s.heap.heap.Inv) (a : HeapAction) :
    (s.step a).1.heap.heap.Inv := by
  cases a with
  | alloc bytes => exact (ZoneHeap.Inv_Alloc hinv bytes).1
  | allocOp op bytes => exact (ZoneHeap.Inv_Alloc hinv bytes).1
  | free ptr => exact (ZoneHeap.Inv_Free hinv ptr).1
  | freeOp op ptr => exact hinv
  | merge => exact ZoneHeap.Inv_Merge hinv
  | reclaim snapshot => exact foldl_Free_Inv _ _ hinv
  | advance => exact hinv

/-- Well-formedness is kept along every run; with `ZoneHeap.Inv_Create` this makes every heap
reached from a created one well-formed. -/
theorem HeapSystem.Inv_run (acts : List HeapAction) :
    ∀ s : HeapSystem, s.heap.heap.Inv → (s.run acts).1.heap.heap.Inv := by
  induction acts with
  | nil => intro s hinv; exact hinv
  | cons a as ih =>
    intro s hinv
    exact ih _ (HeapSystem.Inv_step hinv a)
/-! ## Epoch-delayed free -/

theorem HeapSystem.step_frontier (s : HeapSystem) (a : HeapAction) :
    s.frontier ≤ (s.step a).1.frontier := by
  cases a <;> simp [HeapSystem.step]

theorem HeapSystem.run_frontier (acts : List HeapAction) :
    ∀ s : HeapSystem, s.frontier ≤ (s.run acts).1.frontier := by
  induction acts with
  | nil => intro s; exact Nat.le_refl _
  | cons a as ih =>
    intro s
    exact Nat.le_trans (s.step_frontier a) (ih _)

/-- A chunk stays handed out, and the heap well-formed, through immediate frees of pointers
with other offsets. -/
theorem foldl_Free_keeps (pc l : Nat) (es : List (GlobalPtr × Nat)) :
    ∀ hp : ZoneHeap, hp.Inv → (pc, l) ∈ hp.zone.allocated →
      (∀ e ∈ es, e.1.GetOffset ≠ pc) →
      (es.foldl (fun hp e => hp.Free e.1) hp).Inv
        ∧ (pc, l) ∈ (es.foldl (fun hp e => hp.Free e.1) hp).zone.allocated := by
  induction es with
  | nil => intro hp hinv hm _; exact ⟨hinv, hm⟩
  | cons e es ih =>
    intro hp hinv hm hne
    rw [List.foldl_cons]
    have h1 := ZoneHeap.Inv_Free hinv e.1
    exact ih _ h1.1 (h1.2 (pc, l) hm (Ne.symm (hne e (List.mem_cons_self _ _))))
      (fun e' he' => hne e' (List.mem_cons_of_mem _ he'))

/-- One step keeps the state of a delayed free while the frontier is below `E + 2`, and an
allocation does not return the offset of the chunk. -/
theorem DelayedFree.step {s : HeapSystem} {pc E : Nat} (hJ : DelayedFree s pc E) (hpc : pc ≠ 0)
    (a : HeapAction) (ha : a.freesOffset pc = false) (hf : s.frontier < E + 2) :
    DelayedFree (s.step a).1 pc E ∧ ∀ q ∈ (s.step a).2, q.GetOffset ≠ pc := by
  obtain ⟨hinv, ⟨l, hl⟩, hpend⟩ := hJ
  cases a with
  | alloc bytes =>
    obtain ⟨h1, _, h3, h4⟩ := ZoneHeap.Inv_Alloc hinv bytes
    refine ⟨⟨h1, ⟨l, h3 _ hl⟩, hpend⟩, ?_⟩
    intro q hq
    simp only [HeapSystem.step, EpochZoneHeap.Alloc, Option.mem_def, Option.some.injEq] at hq
    subst hq
    exact h4 (pc, l) hl hpc
  | allocOp op bytes =>
    obtain ⟨h1, _, h3, h4⟩ := ZoneHeap.Inv_Alloc hinv bytes
    refine ⟨⟨h1, ⟨l, h3 _ hl⟩, hpend⟩, ?_⟩
    intro q hq
    simp only [HeapSystem.step, EpochZoneHeap.AllocOp, EpochZoneHeap.Alloc, Option.mem_def,
      Option.some.injEq] at hq
    subst hq
    exact h4 (pc, l) hl hpc
  | free ptr =>
    simp only [HeapAction.freesOffset, beq_eq_false_iff_ne, ne_eq] at ha
    have h1 := ZoneHeap.Inv_Free hinv ptr
    refine ⟨⟨h1.1, ⟨l, h1.2 (pc, l) hl (Ne.symm ha)⟩, hpend⟩, ?_⟩
    intro q hq
    simp [HeapSystem.step] at hq
  | freeOp op ptr =>
    simp only [HeapAction.freesOffset, beq_eq_false_iff_ne, ne_eq] at ha
    refine ⟨⟨hinv, ⟨l, hl⟩, ?_⟩, ?_⟩
    · intro e he heq
      simp only [HeapSystem.step, EpochZoneHeap.FreeOp, List.mem_append,
        List.mem_singleton] at he
      rcases he with he | rfl
      · exact hpend e he heq
      · exact absurd heq ha
    · intro q hq
      simp [HeapSystem.step] at hq
  | merge =>
    refine ⟨⟨ZoneHeap.Inv_Merge hinv, ⟨l, hl⟩, hpend⟩, ?_⟩
    intro q hq
    simp [HeapSystem.step] at hq
  | reclaim snapshot =>
    have hdue : ∀ e ∈ s.heap.pending.filter
        (fun e => decide (e.2 + 2 ≤ min snapshot s.frontier)), e.1.GetOffset ≠ pc := by
      intro e he heq
      rw [List.mem_filter] at he
      have h1 := hpend e he.1 heq
      have h2 := of_decide_eq_true he.2
      omega
    have h1 := foldl_Free_keeps pc l _ s.heap.heap hinv hl hdue
    refine ⟨⟨h1.1, ⟨l, h1.2⟩, ?_⟩, ?_⟩
    · intro e he heq
      simp only [HeapSystem.step, EpochZoneHeap.reclaim] at he
      exact hpend e (List.mem_of_mem_filter he) heq
    · intro q hq
      simp [HeapSystem.step] at hq
  | advance =>
    refine ⟨⟨hinv, ⟨l, hl⟩, hpend⟩, ?_⟩
    intro q hq
    simp [HeapSystem.step] at hq

/-- A run keeps the state of a delayed free as long as its final frontier is below `E + 2`,
and no allocation of the run returns the offset of the chunk. -/
theorem DelayedFree.run {pc E : Nat} (hpc : pc ≠ 0) (acts : List HeapAction) :
    ∀ s : HeapSystem, DelayedFree s pc E → (∀ a ∈ acts, a.freesOffset pc = false) →
      (s.run acts).1.frontier < E + 2 → ∀ q ∈ (s.run acts).2, q.GetOffset ≠ pc := by
  induction acts with
  | nil =>
    intro s _ _ _ q hq
    simp [HeapSystem.run] at hq
  | cons a as ih =>
    intro s hJ hacts hf q hq
    have hf1 : (s.step a).1.frontier < E + 2 :=
      Nat.lt_of_le_of_lt (HeapSystem.run_frontier as _) hf
    have hf0 : s.frontier < E + 2 := Nat.lt_of_le_of_lt (s.step_frontier a) hf1
    obtain ⟨hJ', hq'⟩ := hJ.step hpc a (hacts a (List.mem_cons_self _ _)) hf0
    simp only [HeapSystem.run, List.mem_append] at hq
    rcases hq with hq | hq
    · exact hq' q (by simpa using hq)
    · exact ih _ hJ' (fun a' ha' => hacts a' (List.mem_cons_of_mem _ ha')) hf q hq
theorem GlobalPtr.offset_ne_zero_of_valid {p : GlobalPtr} (h : p.IsValid = true) :
    p.GetOffset ≠ 0 := by
  simp only [GlobalPtr.IsValid, GlobalPtr.IsValidOffset, Bool.and_eq_true, bne_iff_ne, ne_eq] at h
  exact h.2

/-- C9: let `p` be a valid pointer to a chunk handed out by a well-formed heap, with no
delayed free of it pending, and let `Free(op, p)` be issued at reported epoch `E`. Then, for
every sequence of heap operations, worker passes and frontier advances that does not free
`p` (a pointer with its offset) a second time: (1) as long as the frontier stays below `E + 2`, no `Alloc` returns `p`;
(2) in particular, while the frontier is below `E + 2`, an `Alloc(op, n)` made right after in
the same `EpochOp` returns a pointer different from `p`, for every size `n`; (3) if some
`Alloc` does return `p`, the frontier has reached `E + 2`. -/
theorem C9_epoch_delayed_free (s : HeapSystem) (op : EpochOp) (p : GlobalPtr)
    (hinv : s.heap.heap.Inv) (hvalid : p.IsValid = true)
    (hlive : ∃ l, (p.GetOffset, l) ∈ s.heap.heap.zone.allocated)
    (hfresh : ∀ e ∈ s.heap.pending, e.1.GetOffset ≠ p.GetOffset) :
    (∀ acts : List HeapAction, (∀ a ∈ acts, a.freesOffset p.GetOffset = false) →
        ((s.step (.freeOp op p)).1.run acts).1.frontier < op.reported_epoch + 2 →
        ∀ q ∈ ((s.step (.freeOp op p)).1.run acts).2,
          q ≠ p ∧ GlobalPtr.operator_ne q p = true)
      ∧ (s.frontier < op.reported_epoch + 2 →
          ∀ n, ((s.heap.FreeOp op p).AllocOp op n).1 ≠ p)
      ∧ (∀ acts : List HeapAction, (∀ a ∈ acts, a.freesOffset p.GetOffset = false) →
          p ∈ ((s.step (.freeOp op p)).1.run acts).2 →
          op.reported_epoch + 2 ≤ ((s.step (.freeOp op p)).1.run acts).1.frontier) := by
  have hpc := GlobalPtr.offset_ne_zero_of_valid hvalid
  have hJ : DelayedFree (s.step (.freeOp op p)).1 p.GetOffset op.reported_epoch := by
    refine ⟨hinv, hlive, ?_⟩
    intro e he heq
    simp only [HeapSystem.step, EpochZoneHeap.FreeOp, List.mem_append,
      List.mem_singleton] at he
    rcases he with he | rfl
    · exact absurd heq (hfresh e he)
    · exact Nat.le_refl _
  have main : ∀ acts : List HeapAction, (∀ a ∈ acts, a.freesOffset p.GetOffset = false) →
      ((s.step (.freeOp op p)).1.run acts).1.frontier < op.reported_epoch + 2 →
      ∀ q ∈ ((s.step (.freeOp op p)).1.run acts).2, q ≠ p := by
    intro acts hacts hf q hq heq
    exact DelayedFree.run hpc acts _ hJ hacts hf q hq (by rw [heq])
  refine ⟨?_, ?_, ?_⟩
  · intro acts hacts hf q hq
    have hne := main acts hacts hf q hq
    refine ⟨hne, ?_⟩
    simp only [GlobalPtr.operator_ne, GlobalPtr.operator_eq, Bool.not_eq_true', beq_eq_false_iff_ne,
      ne_eq]
    intro heq
    apply hne
    cases q
    cases p
    simp only [GlobalPtr.mk.injEq]
    exact heq
  · intro hf n
    have h1 := main [.allocOp op n] (by intro a ha; simp at ha; subst ha; rfl)
      (by simpa [HeapSystem.run, HeapSystem.step] using hf)
    exact h1 _ (by simp [HeapSystem.run, HeapSystem.step])
  · intro acts hacts hp
    by_contra hlt
    exact main acts hacts (by omega) p hp rfl

/-- Witness of C9 on a fresh 128 MB heap with the frontier at epoch 5: `p = Alloc(4)` is
freed under an `EpochOp` reporting epoch 5; an `Alloc(op, 4)` in the same operation, a worker
pass, one frontier advance (to 6), another worker pass and another `Alloc(4)` all leave `p`
alone. Once the frontier has advanced twice (to 7) and the worker has run, `Alloc(4)` returns
`p` again. -/
theorem C9_epoch_delayed_free_witness :
    (∀ q ∈ ((HeapSystem.step ⟨((EpochZoneHeap.Create ⟨1⟩ (128 * 1024 * 1024)).Alloc 4).2, 5⟩
          (.freeOp ⟨5⟩ ((EpochZoneHeap.Create ⟨1⟩ (128 * 1024 * 1024)).Alloc 4).1)).1.run
          [.allocOp ⟨5⟩ 4, .reclaim 5, .advance, .reclaim 6, .alloc 4]).2,
        q ≠ ((EpochZoneHeap.Create ⟨1⟩ (128 * 1024 * 1024)).Alloc 4).1
          ∧ GlobalPtr.operator_ne q ((EpochZoneHeap.Create ⟨1⟩ (128 * 1024 * 1024)).Alloc 4).1
              = true)
      ∧ ((HeapSystem.step ⟨((EpochZoneHeap.Create ⟨1⟩ (128 * 1024 * 1024)).Alloc 4).2, 5⟩
          (.freeOp ⟨5⟩ ((EpochZoneHeap.Create ⟨1⟩ (128 * 1024 * 1024)).Alloc 4).1)).1.run
          [.advance, .advance, .reclaim 7, .alloc 4]).2
          = [((EpochZoneHeap.Create ⟨1⟩ (128 * 1024 * 1024)).Alloc 4).1] :=
  ⟨(C9_epoch_delayed_free ⟨((EpochZoneHeap.Create ⟨1⟩ (128 * 1024 * 1024)).Alloc 4).2, 5⟩ ⟨5⟩
      ((EpochZoneHeap.Create ⟨1⟩ (128 * 1024 * 1024)).Alloc 4).1
      (by decide) (by decide) ⟨0, by decide⟩ (by decide)).1
      [.allocOp ⟨5⟩ 4, .reclaim 5, .advance, .reclaim 6, .alloc 4] (by decide) (by decide),
    by decide⟩

/-! ## The merge scenario of the tests -/

theorem EpochZoneHeap.Alloc_eq (sid : ShelfId) (z : Zone) (q : List (GlobalPtr × Nat))
    (bytes : Nat) :
    EpochZoneHeap.Alloc ⟨⟨sid, z⟩, q⟩ bytes
      = (wrapOffset sid (z.allocStep bytes).1, ⟨⟨sid, (z.allocStep bytes).2⟩, q⟩) := by
  simp only [EpochZoneHeap.Alloc, ZoneHeap.Alloc, Zone.allocStep]
  cases z.alloc bytes with
  | none => rfl
  | some r => rfl

theorem EpochZoneHeap.allocMany_eq (sid : ShelfId) (q : List (GlobalPtr × Nat)) (bytes n : Nat) :
    ∀ z : Zone, EpochZoneHeap.allocMany ⟨⟨sid, z⟩, q⟩ bytes n
      = ((z.allocMany bytes n).1.map (wrapOffset sid), ⟨⟨sid, (z.allocMany bytes n).2⟩, q⟩) := by
  induction n with
  | zero => intro z; rfl
  | succ n ih =>
    intro z
    simp only [EpochZoneHeap.allocMany, Zone.allocMany, EpochZoneHeap.Alloc_eq, ih, List.map_cons]

theorem EpochZoneHeap.freeMany_eq (sid : ShelfId) (q : List (GlobalPtr × Nat))
    (ptrs : List GlobalPtr) :
    ∀ z : Zone, EpochZoneHeap.freeMany ⟨⟨sid, z⟩, q⟩ ptrs
      = ⟨⟨sid, z.freeMany (ptrs.map GlobalPtr.GetOffset)⟩, q⟩ := by
  induction ptrs with
  | nil => intro z; rfl
  | cons p ps ih =>
    intro z
    simp only [EpochZoneHeap.freeMany, EpochZoneHeap.Free, ZoneHeap.Free, Zone.freeMany,
      List.map_cons, ih]

theorem GetOffset_wrapOffset (sid : ShelfId) (hs : sid.shelf_id_ < 2 ^ 8) (o : Option Nat)
    (ho : o.getD 0 < 2 ^ 48) : (wrapOffset sid o).GetOffset = o.getD 0 := by
  cases o with
  | none => exact GlobalPtr.null_offset
  | some c => exact GetOffset_ofShelfOffset sid c hs ho

theorem map_GetOffset_wrapOffset (sid : ShelfId) (hs : sid.shelf_id_ < 2 ^ 8)
    (os : List (Option Nat)) (ho : ∀ o ∈ os, o.getD 0 < 2 ^ 48) :
    (os.map (wrapOffset sid)).map GlobalPtr.GetOffset = os.map (fun o => o.getD 0) := by
  induction os with
  | nil => rfl
  | cons o os ih =>
    simp only [List.map_cons]
    rw [GetOffset_wrapOffset sid hs o (ho o (List.mem_cons_self _ _)),
      ih (fun o' h' => ho o' (List.mem_cons_of_mem _ h'))]

set_option maxRecDepth 100000 in
/-- C10: in a freshly created 128 MB heap (on any shelf) with 64-byte minimum size, the 24
minimum-size allocations return the blocks 8..31; after freeing all of them, `Alloc(16 * 64)`
before `Merge()` returns offset `32 * 64`, and after `Merge()` the next `Alloc(16 * 64)`
returns offset `16 * 64`. -/
theorem C10_merge_scenario (sid : ShelfId) (hs : sid.shelf_id_ < 2 ^ 8) :
    (EpochZoneHeap.Create sid (128 * 1024 * 1024)).MinAllocSize = 64
      ∧ (((EpochZoneHeap.Create sid (128 * 1024 * 1024)).allocMany 64 24).1.map
          GlobalPtr.GetOffset = (List.range 24).map (fun i => (8 + i) * 64))
      ∧ (((((EpochZoneHeap.Create sid (128 * 1024 * 1024)).allocMany 64 24).2.freeMany
          ((EpochZoneHeap.Create sid (128 * 1024 * 1024)).allocMany 64 24).1).Alloc
            (16 * 64)).1.GetOffset = 32 * 64)
      ∧ ((((((EpochZoneHeap.Create sid (128 * 1024 * 1024)).allocMany 64 24).2.freeMany
          ((EpochZoneHeap.Create sid (128 * 1024 * 1024)).allocMany 64 24).1).Alloc
            (16 * 64)).2.Merge.Alloc (16 * 64)).1.GetOffset = 16 * 64) := by
  have hoffs : ∀ o ∈ ((Zone.create (128 * 1024 * 1024)).allocMany 64 24).1,
      o.getD 0 < 2 ^ 48 := by decide
  have hmap := map_GetOffset_wrapOffset sid hs _ hoffs
  refine ⟨rfl, ?_, ?_, ?_⟩
  · simp only [EpochZoneHeap.Create, ZoneHeap.Create, EpochZoneHeap.allocMany_eq, hmap]
    decide
  · simp only [EpochZoneHeap.Create, ZoneHeap.Create, EpochZoneHeap.allocMany_eq,
      EpochZoneHeap.freeMany_eq, hmap, EpochZoneHeap.Alloc_eq]
    rw [GetOffset_wrapOffset sid hs _ (by decide)]
    decide
  · simp only [EpochZoneHeap.Create, ZoneHeap.Create, EpochZoneHeap.allocMany_eq,
      EpochZoneHeap.freeMany_eq, hmap, EpochZoneHeap.Alloc_eq, EpochZoneHeap.Merge,
      ZoneHeap.Merge]
    rw [GetOffset_wrapOffset sid hs _ (by decide)]
    decide

/-- Witness of C10 on the shelf with id 1. -/
theorem C10_merge_scenario_witness :
    (EpochZoneHeap.Create ⟨1⟩ (128 * 1024 * 1024)).MinAllocSize = 64
      ∧ (((EpochZoneHeap.Create ⟨1⟩ (128 * 1024 * 1024)).allocMany 64 24).1.map
          GlobalPtr.GetOffset = (List.range 24).map (fun i => (8 + i) * 64))
      ∧ (((((EpochZoneHeap.Create ⟨1⟩ (128 * 1024 * 1024)).allocMany 64 24).2.freeMany
          ((EpochZoneHeap.Create ⟨1⟩ (128 * 1024 * 1024)).allocMany 64 24).1).Alloc
            (16 * 64)).1.GetOffset = 32 * 64)
      ∧ ((((((EpochZoneHeap.Create ⟨1⟩ (128 * 1024 * 1024)).allocMany 64 24).2.freeMany
          ((EpochZoneHeap.Create ⟨1⟩ (128 * 1024 * 1024)).allocMany 64 24).1).Alloc
            (16 * 64)).2.Merge.Alloc (16 * 64)).1.GetOffset = 16 * 64) :=
  C10_merge_scenario ⟨1⟩ (by decide)

/-! ## Further claims on the GlobalPtr codec -/

/-- C13: for an 8-bit shelf id `s`, an 8-bit reserve `r` and an offset `o < 2^48`, the pair
of the shelf id and the offset decoded from `GlobalPtr(s, r, o)` is `(s, o)`, whatever the
reserve. -/
theorem C13_shelf_and_offset_survive (s : ShelfId) (r o : Nat) (hs : s.shelf_id_ < 2 ^ 8)
    (hr : r < 2 ^ 8) (ho : o < 2 ^ 48) :
    ((GlobalPtr.ofShelfReserveOffset s r o).GetShelfId,
      (GlobalPtr.ofShelfReserveOffset s r o).GetOffset) = (s, o) := by
  rw [GetShelfId_ofShelfReserveOffset s r o hs hr ho, GetOffset_ofShelfReserveOffset s r o hs hr ho]

/-- Witness of C13 at shelf id 77, reserve 255, offset `2^48 - 1`. -/
theorem C13_shelf_and_offset_survive_witness :
    ((GlobalPtr.ofShelfReserveOffset ⟨77⟩ 255 (2 ^ 48 - 1)).GetShelfId,
      (GlobalPtr.ofShelfReserveOffset ⟨77⟩ 255 (2 ^ 48 - 1)).GetOffset) = (⟨77⟩, 2 ^ 48 - 1) :=
  C13_shelf_and_offset_survive ⟨77⟩ 255 (2 ^ 48 - 1) (by decide) (by decide) (by decide)

/-- C14: for every word `w`, `GlobalPtr(w).GetReserve()` is 0: the mask of bits 55..48 is
applied without a shift down and the result is cut to the 8-bit `Reserve` type; hence
`GetReserve()` is 0 for every pointer built from a shelf id, a reserve and an offset,
whatever the reserve. -/
theorem C14_reserve_constant :
    (∀ w : Nat, (GlobalPtr.mk w).GetReserve = 0)
      ∧ (∀ w : Nat, and64 (shl64 (sub64 (shl64 1 ReserveTSize) 1) kReserveShift) w
          = w / 2 ^ 48 % 2 ^ 8 * 2 ^ 48)
      ∧ (∀ (s : ShelfId) (r o : Nat), (GlobalPtr.ofShelfReserveOffset s r o).GetReserve = 0) := by
  refine ⟨fun w => DecodeReserve_eq_zero w, ?_, fun s r o => DecodeReserve_eq_zero _⟩
  intro w
  have h : shl64 (sub64 (shl64 1 ReserveTSize) 1) kReserveShift = (2 ^ 8 - 1) <<< 48 := by decide
  have key : (2 ^ 8 - 1) <<< 48 &&& w = ((w >>> 48) % 2 ^ 8) <<< 48 := by
    apply Nat.eq_of_testBit_eq
    intro i
    simp only [Nat.testBit_and, Nat.testBit_shiftLeft, Nat.testBit_two_pow_sub_one,
      Nat.testBit_mod_two_pow, Nat.testBit_shiftRight]
    by_cases h48 : 48 ≤ i
    · have e : 48 + (i - 48) = i := by omega
      by_cases h8 : i - 48 < 8
      · simp [h48, h8, e]
      · simp [h48, h8]
    · simp [h48]
  rw [and64, h, key, Nat.shiftLeft_eq, Nat.shiftRight_eq_div_pow]

/-- C15: the default-constructed pointer has the word 0, decodes to shelf id 0 and offset 0,
is not valid, and compares equal to `GlobalPtr(ShelfId(0), 0)` and to the pointer built from
the word 0. -/
theorem C15_default_is_null :
    GlobalPtr.null.ToUINT64 = 0
      ∧ GlobalPtr.null.GetShelfId = ⟨0⟩
      ∧ GlobalPtr.null.GetOffset = 0
      ∧ GlobalPtr.null.IsValid = false
      ∧ GlobalPtr.operator_eq GlobalPtr.null (GlobalPtr.ofShelfOffset ⟨0⟩ 0) = true
      ∧ GlobalPtr.operator_eq GlobalPtr.null (GlobalPtr.mk 0) = true := by
  decide

/-- C16: for every shelf id `s` and every offset value `o`, out-of-range ones included, the
two-argument constructor gives the pointer of the three-argument constructor with reserve 0,
the additions being 64-bit with wrap-around. -/
theorem C16_two_arg_is_reserve_zero (s : ShelfId) (o : Nat) :
    GlobalPtr.operator_eq (GlobalPtr.ofShelfOffset s o) (GlobalPtr.ofShelfReserveOffset s 0 o)
        = true
      ∧ GlobalPtr.ofShelfOffset s o = GlobalPtr.ofShelfReserveOffset s 0 o := by
  have h : EncodeGlobalPtr s o = EncodeGlobalPtr3 s 0 o := by
    simp only [EncodeGlobalPtr, EncodeGlobalPtr3, add64, shl64, Nat.zero_shiftLeft, Nat.zero_mod,
      Nat.add_zero, Nat.mod_mod]
  simp [GlobalPtr.operator_eq, GlobalPtr.ofShelfOffset, GlobalPtr.ofShelfReserveOffset, h]

/-! ## ShelfManager: the registry invariant -/

theorem overlaps_iff (b l b' l' : Nat) :
    overlaps b l b' l' = true ↔ ∃ x, inInterval x b l ∧ inInterval x b' l' := by
  simp only [overlaps, decide_eq_true_eq, inInterval]
  constructor
  · intro h
    exact ⟨max b b', by omega⟩
  · rintro ⟨x, hx⟩
    omega

theorem overlaps_eq_false_iff (b l b' l' : Nat) :
    overlaps b l b' l' = false ↔ ∀ x, ¬ (inInterval x b l ∧ inInterval x b' l') := by
  rw [← Bool.not_eq_true, overlaps_iff]
  exact not_exists

theorem overlaps_comm (b l b' l' : Nat) : overlaps b l b' l' = overlaps b' l' b l := by
  simp only [overlaps, Nat.max_comm b b', Nat.min_comm (b + l) (b' + l')]

theorem ShelfManager.find_eq_none {m : ShelfManager} {id : ShelfId} :
    m.find id = none ↔ id ∉ m.map_.map Prod.fst := by
  simp only [ShelfManager.find, Option.map_eq_none', List.find?_eq_none, beq_iff_eq, List.mem_map,
    not_exists, not_and]

theorem ShelfManager.find_eq_some {m : ShelfManager} {id : ShelfId} {b len : Nat}
    (h : m.find id = some (b, len)) : (id, (b, len)) ∈ m.map_ := by
  simp only [ShelfManager.find, Option.map_eq_some'] at h
  obtain ⟨e, he, h2⟩ := h
  have hm := List.mem_of_find?_eq_some he
  have hk := List.find?_some he
  simp only [beq_iff_eq] at hk
  obtain ⟨k, v⟩ := e
  simp only at hk h2
  subst hk
  subst h2
  exact hm

theorem perm_insertByBase (e : Nat × (ShelfId × Nat)) (l : List (Nat × (ShelfId × Nat))) :
    (insertByBase e l).Perm (e :: l) := by
  induction l with
  | nil => exact List.Perm.refl _
  | cons x xs ih =>
    unfold insertByBase
    split
    · exact List.Perm.refl _
    · exact (List.Perm.cons x ih).trans (List.Perm.swap e x xs)

theorem mem_insertByBase {e x : Nat × (ShelfId × Nat)} {l : List (Nat × (ShelfId × Nat))} :
    x ∈ insertByBase e l ↔ x = e ∨ x ∈ l := by
  rw [(perm_insertByBase e l).mem_iff, List.mem_cons]

theorem sorted_insertByBase (e : Nat × (ShelfId × Nat)) (l : List (Nat × (ShelfId × Nat)))
    (h : l.Pairwise (fun a b => a.1 ≤ b.1)) :
    (insertByBase e l).Pairwise (fun a b => a.1 ≤ b.1) := by
  induction l with
  | nil => simp [insertByBase]
  | cons x xs ih =>
    rw [List.pairwise_cons] at h
    unfold insertByBase
    split
    · rename_i hle
      rw [List.pairwise_cons]
      refine ⟨?_, List.pairwise_cons.mpr h⟩
      intro y hy
      rcases List.mem_cons.mp hy with rfl | hy
      · exact hle
      · exact Nat.le_trans hle (h.1 y hy)
    · rename_i hnle
      rw [List.pairwise_cons]
      refine ⟨?_, ih h.2⟩
      intro y hy
      rcases mem_insertByBase.mp hy with rfl | hy
      · omega
      · exact h.1 y hy

/-- A successful or refused `RegisterShelf` keeps the invariant. -/
theorem ShelfManager.Inv_RegisterShelf {m : ShelfManager} (hinv : m.Inv) (id : ShelfId)
    (base length : Nat) : (m.RegisterShelf id base length).2.Inv := by
  unfold ShelfManager.RegisterShelf
  split
  · exact hinv
  · rename_i hcond
    simp only [Bool.or_eq_true, not_or, Bool.not_eq_true, List.any_eq_false] at hcond
    obtain ⟨hsome, hany⟩ := hcond
    have hfind : m.find id = none := by
      cases hf : m.find id with
      | none => rfl
      | some v => rw [hf] at hsome; exact absurd hsome (by simp)
    obtain ⟨h1, h2, h3, h4, h5⟩ := hinv
    have hfresh := ShelfManager.find_eq_none.mp hfind
    refine ⟨?_, ?_, ?_, ?_, ?_⟩
    · simp only [List.map_cons, List.nodup_cons]
      exact ⟨hfresh, h1⟩
    · rw [List.pairwise_cons]
      refine ⟨fun e he => ?_, h2⟩
      simpa using hany e he
    · intro id' b len
      simp only [List.mem_cons, Prod.mk.injEq, mem_insertByBase]
      rw [h3 id' b len]
      constructor
      · rintro (⟨rfl, rfl, rfl⟩ | h)
        · exact Or.inl ⟨rfl, rfl, rfl⟩
        · exact Or.inr h
      · rintro (⟨rfl, rfl, rfl⟩ | h)
        · exact Or.inl ⟨rfl, rfl, rfl⟩
        · exact Or.inr h
    · rw [(perm_insertByBase _ _).nodup_iff, List.nodup_cons]
      refine ⟨fun hin => ?_, h4⟩
      have := (h3 id base length).mpr hin
      exact hfresh (List.mem_map.mpr ⟨_, this, rfl⟩)
    · exact sorted_insertByBase _ _ h5

/-- The function `UnregisterShelf` keeps the invariant. -/
theorem ShelfManager.Inv_UnregisterShelf {m : ShelfManager} (hinv : m.Inv) (id : ShelfId) :
    (m.UnregisterShelf id).2.Inv := by
  unfold ShelfManager.UnregisterShelf
  split
  · exact hinv
  · rename_i base length hfind
    obtain ⟨h1, h2, h3, h4, h5⟩ := hinv
    have hnd : m.map_.Nodup := List.Nodup.of_map _ h1
    refine ⟨?_, ?_, ?_, ?_, ?_⟩
    · exact h1.sublist ((List.erase_sublist _ _).map _)
    · exact h2.sublist (List.erase_sublist _ _)
    · intro id' b len
      simp only
      rw [hnd.mem_erase_iff, h4.mem_erase_iff, h3 id' b len]
      simp only [ne_eq, Prod.mk.injEq]
      constructor
      · rintro ⟨hne, hm⟩
        exact ⟨fun h => hne ⟨h.2.1, h.1, h.2.2⟩, hm⟩
      · rintro ⟨hne, hm⟩
        exact ⟨fun h => hne ⟨h.2.1, h.1, h.2.2⟩, hm⟩
    · exact h4.sublist (List.erase_sublist _ _)
    · exact h5.sublist (List.erase_sublist _ _)

theorem ShelfManager.Inv_empty : ShelfManager.empty.Inv := by
  simp [ShelfManager.Inv, ShelfManager.empty]

theorem ShelfManager.Inv_after_calls (calls : List ShelfManagerCall) :
    ∀ m : ShelfManager, m.Inv → (m.run calls).Inv := by
  induction calls with
  | nil => intro m h; exact h
  | cons c cs ih =>
    intro m h
    apply ih
    cases c with
    | RegisterShelf id base length => exact ShelfManager.Inv_RegisterShelf h id base length
    | UnregisterShelf id => exact ShelfManager.Inv_UnregisterShelf h id
theorem ShelfManager.find_cons_self (m : ShelfManager) (id : ShelfId) (v : Nat × Nat)
    (r : List (Nat × (ShelfId × Nat))) :
    ShelfManager.find ⟨(id, v) :: m.map_, r⟩ id = some v := by
  simp [ShelfManager.find]

/-- C12: starting from the empty registry, after any sequence of `RegisterShelf` and
`UnregisterShelf` calls each shelf id has at most one entry, the intervals
`[base, base + length)` of two different registered shelves have no address in common, in the
forward map and in the reverse map, and the two maps hold the same entries; a
`RegisterShelf(id, base, length)` whose id is already registered or whose interval overlaps
a registered interval returns a null base and leaves both maps unchanged, and any other
`RegisterShelf` returns `base` and registers it. -/
theorem C12_registry_disjoint :
    (∀ calls : List ShelfManagerCall,
        ((ShelfManager.empty.run calls).map_.map Prod.fst).Nodup
        ∧ (∀ e ∈ (ShelfManager.empty.run calls).map_, ∀ e' ∈ (ShelfManager.empty.run calls).map_,
            e ≠ e' → ∀ x, ¬ (inInterval x e.2.1 e.2.2 ∧ inInterval x e'.2.1 e'.2.2))
        ∧ (∀ id b len, (id, (b, len)) ∈ (ShelfManager.empty.run calls).map_
            ↔ (b, (id, len)) ∈ (ShelfManager.empty.run calls).reverse_map_)
        ∧ (∀ a ∈ (ShelfManager.empty.run calls).reverse_map_,
            ∀ a' ∈ (ShelfManager.empty.run calls).reverse_map_,
            a ≠ a' → ∀ x, ¬ (inInterval x a.1 a.2.2 ∧ inInterval x a'.1 a'.2.2)))
      ∧ (∀ (m : ShelfManager) (id : ShelfId) (base length : Nat),
          (id ∈ m.map_.map Prod.fst
            ∨ ∃ e ∈ m.map_, ∃ x, inInterval x base length ∧ inInterval x e.2.1 e.2.2) →
          m.RegisterShelf id base length = (kNullBase, m))
      ∧ (∀ (m : ShelfManager) (id : ShelfId) (base length : Nat),
          id ∉ m.map_.map Prod.fst →
          (∀ e ∈ m.map_, ∀ x, ¬ (inInterval x base length ∧ inInterval x e.2.1 e.2.2)) →
          (m.RegisterShelf id base length).1 = base
            ∧ (m.RegisterShelf id base length).2.LookupShelf id = base) := by
  refine ⟨?_, ?_, ?_⟩
  · intro calls
    obtain ⟨h1, h2, h3, _, _⟩ := ShelfManager.Inv_after_calls calls _ ShelfManager.Inv_empty
    have hfwd : ∀ e ∈ (ShelfManager.empty.run calls).map_,
        ∀ e' ∈ (ShelfManager.empty.run calls).map_,
        e ≠ e' → ∀ x, ¬ (inInterval x e.2.1 e.2.2 ∧ inInterval x e'.2.1 e'.2.2) := by
      intro e he e' he' hne
      have hsymm : Symmetric (fun e e' : ShelfId × (Nat × Nat) =>
          overlaps e.2.1 e.2.2 e'.2.1 e'.2.2 = false) := by
        intro a b hab
        rw [overlaps_comm]
        exact hab
      exact (overlaps_eq_false_iff _ _ _ _).mp (h2.forall hsymm he he' hne)
    refine ⟨h1, hfwd, h3, ?_⟩
    intro a ha a' ha' hne
    obtain ⟨b, id, len⟩ := a
    obtain ⟨b', id', len'⟩ := a'
    have hm := (h3 id b len).mpr ha
    have hm' := (h3 id' b' len').mpr ha'
    refine hfwd _ hm _ hm' ?_
    intro heq
    simp only [Prod.mk.injEq] at heq
    exact hne (by rw [heq.1, heq.2.1, heq.2.2])
  · intro m id base length h
    unfold ShelfManager.RegisterShelf
    have hcond : ((m.find id).isSome
        || m.map_.any (fun e => overlaps base length e.2.1 e.2.2)) = true := by
      rcases h with h | ⟨e, he, x, hx⟩
      · have : m.find id ≠ none := fun hn => ShelfManager.find_eq_none.mp hn h
        cases hf : m.find id with
        | none => exact absurd hf this
        | some v => simp
      · have ho : overlaps base length e.2.1 e.2.2 = true := (overlaps_iff _ _ _ _).mpr ⟨x, hx⟩
        rw [Bool.or_eq_true]
        right
        exact List.any_eq_true.mpr ⟨e, he, ho⟩
    rw [if_pos hcond]
  · intro m id base length hid hfree
    unfold ShelfManager.RegisterShelf
    have hcond : ¬ (((m.find id).isSome
        || m.map_.any (fun e => overlaps base length e.2.1 e.2.2)) = true) := by
      rw [Bool.or_eq_true, not_or]
      constructor
      · rw [ShelfManager.find_eq_none.mpr hid]
        simp
      · rw [List.any_eq_true]
        rintro ⟨e, he, ho⟩
        obtain ⟨x, hx⟩ := (overlaps_iff _ _ _ _).mp ho
        exact hfree e he x hx
    rw [if_neg hcond]
    refine ⟨rfl, ?_⟩
    simp only [ShelfManager.LookupShelf, ShelfManager.find_cons_self]

/-! ## ShelfRegion: the size in the header -/

theorem decodeLE_encodeLE64 (v : Nat) : decodeLE (encodeLE64 v) = v % 2 ^ 64 := by
  simp only [decodeLE, encodeLE64, List.foldr_cons, List.foldr_nil]
  omega

theorem FileSystem.lookup_store (fs : FileSystem) (pathname : String) (f : FileData) :
    (fs.store pathname f).lookup pathname = some f := by
  simp [FileSystem.lookup, FileSystem.store]

theorem readLE64_header (a b c rest : List Nat) (ha : a.length = 8) (hb : b.length = 8)
    (hc : c.length = 8) (len : Nat) :
    FileData.readLE64 ⟨len, a ++ b ++ c ++ rest⟩ kShelfSizeOffset = decodeLE c := by
  match a, ha with
  | [a0, a1, a2, a3, a4, a5, a6, a7], _ =>
    match b, hb with
    | [b0, b1, b2, b3, b4, b5, b6, b7], _ =>
      match c, hc with
      | [c0, c1, c2, c3, c4, c5, c6, c7], _ =>
        simp [FileData.readLE64, kShelfSizeOffset, List.range, List.range.loop]

/-- C11: for every size `n` of type `size_t`, on a file system where the shelf file of a
region that is not open exists, `Create(n)` succeeds, the following `Open` succeeds and
opens the region, and `Size()` then returns exactly `n`, while the backing file is
`n + 4096` bytes long; and `Open` of a region that is not open on a pathname that does not
exist returns `SHELF_FILE_NOT_FOUND` and leaves the region as it was. -/
theorem C11_region_size (fs : FileSystem) (r : ShelfRegion) (n flags : Nat) (hn : n < 2 ^ 64)
    (_hex : (fs.lookup r.shelf_.pathname).isSome = true) (hclosed : r.shelf_.is_open = false) :
    (r.Create fs n).1 = ErrorCode.NO_ERROR
      ∧ (r.Open (r.Create fs n).2 flags).1 = ErrorCode.NO_ERROR
      ∧ (r.Open (r.Create fs n).2 flags).2.IsOpen = true
      ∧ (r.Open (r.Create fs n).2 flags).2.Size (r.Create fs n).2 = n
      ∧ (((r.Create fs n).2.lookup r.shelf_.pathname).map FileData.length
          = some (n + kShelfHeaderSize))
      ∧ (∀ (fs' : FileSystem) (r' : ShelfRegion) (flags' : Nat),
          r'.shelf_.is_open = false → fs'.lookup r'.shelf_.pathname = none →
          r'.Open fs' flags' = (ErrorCode.SHELF_FILE_NOT_FOUND, r')) := by
  have hopen : r.Open (r.Create fs n).2 flags
      = (ErrorCode.NO_ERROR, ⟨true, { r.shelf_ with is_open := true }⟩) := by
    simp [ShelfRegion.Open, ShelfFile.Open, ShelfRegion.Create, hclosed, FileSystem.lookup_store]
  refine ⟨rfl, ?_, ?_, ?_, ?_, ?_⟩
  · rw [hopen]
  · rw [hopen]
    rfl
  · rw [hopen]
    simp only [ShelfRegion.Size, ShelfRegion.Create, FileSystem.lookup_store, FileData.write0]
    rw [readLE64_header (encodeLE64 kShelfMagic) (encodeLE64 kShelfVersion)
      (encodeLE64 (n % 2 ^ 64)) _ rfl rfl rfl, decodeLE_encodeLE64]
    omega
  · simp only [ShelfRegion.Create, FileSystem.lookup_store, Option.map_some', FileData.write0,
      FileData.truncate, kShelfHeaderSize, Option.some.injEq]
    simp [encodeLE64]
  · intro fs' r' flags' hc hnone
    simp [ShelfRegion.Open, ShelfFile.Open, hc, hnone]

/-- Witness of C11, the scenario of the test: a zero-length shelf file exists, the region is
created with 128 MB, opened, and reports 128 MB while the file holds 4096 more bytes. -/
theorem C11_region_size_witness :
    ((ShelfRegion.new "1_1").Create ⟨[("1_1", ⟨0, []⟩)]⟩ (128 * 1024 * 1024)).1
        = ErrorCode.NO_ERROR
      ∧ (((ShelfRegion.new "1_1").Open
          ((ShelfRegion.new "1_1").Create ⟨[("1_1", ⟨0, []⟩)]⟩ (128 * 1024 * 1024)).2 2).2.Size
          ((ShelfRegion.new "1_1").Create ⟨[("1_1", ⟨0, []⟩)]⟩ (128 * 1024 * 1024)).2
            = 128 * 1024 * 1024)
      ∧ (ShelfRegion.new "1_1").Open ⟨[]⟩ 2
          = (ErrorCode.SHELF_FILE_NOT_FOUND, ShelfRegion.new "1_1") :=
  ⟨(C11_region_size ⟨[("1_1", ⟨0, []⟩)]⟩ (ShelfRegion.new "1_1") (128 * 1024 * 1024) 2
      (by decide) (by decide) (by decide)).1,
    (C11_region_size ⟨[("1_1", ⟨0, []⟩)]⟩ (ShelfRegion.new "1_1") (128 * 1024 * 1024) 2
      (by decide) (by decide) (by decide)).2.2.2.1,
    (C11_region_size ⟨[("1_1", ⟨0, []⟩)]⟩ (ShelfRegion.new "1_1") (128 * 1024 * 1024) 2
      (by decide) (by decide) (by decide)).2.2.2.2.2 ⟨[]⟩ (ShelfRegion.new "1_1") 2
      (by decide) (by decide)⟩

/-! ## Immediate-free reuse -/

end nvmm
